import Mathlib

/-!
Shallow embedding of the WireLab circuit-analysis engine
(`src/wiring-app/src/App.js`).

Modelling conventions:
* JavaScript numbers are modelled as rationals (`ℚ`); `Math.hypot`,
  which in the source returns a double-precision approximation of the
  Euclidean norm, is modelled by a computable rational approximation
  (`hypotQ`); no property proved below depends on the numeric value of
  a square root, only on its non-negativity.
* JS `undefined` / `null` optional fields become `Option`; JS truthiness
  tests on such fields are translated explicitly (`0` and `""` are falsy).
* JS `Map` is modelled as an insertion-ordered association list with
  unique keys, JS `Set` as an insertion-ordered duplicate-free list;
  this preserves the iteration order the source relies on.
* JS `while` loops and recursive DFS are modelled with an explicit fuel
  parameter; the fuel bounds chosen are proved sufficient.
-/

namespace WireLab

/-- Bounded binary search for the integer square root, structurally
recursive so that the kernel can evaluate it. -/
def isqrtGo (n : Nat) : Nat → Nat → Nat → Nat
  | 0, lo, _ => lo
  | fuel+1, lo, hi =>
    if hi ≤ lo then lo
    else
      if ((lo + hi + 1) / 2) * ((lo + hi + 1) / 2) ≤ n then
        isqrtGo n fuel ((lo + hi + 1) / 2) hi
      else
        isqrtGo n fuel lo ((lo + hi + 1) / 2 - 1)

/-- Integer square root via 64 bisection steps (the source computes with
64-bit doubles, so its square roots are approximations as well). -/
def isqrt (n : Nat) : Nat := isqrtGo n 64 0 n

/-- Rational approximation of the square root: `√(a/b) ≈ √(a·b)/b`.
Non-negative by construction. -/
def ratSqrt (q : ℚ) : ℚ :=
  if q ≤ 0 then 0 else ((isqrt (q.num.toNat * q.den) : ℤ) : ℚ) / (q.den : ℚ)

/-- Model of `Math.hypot(x, y)`: the source's floating-point Euclidean
norm, modelled by a computable rational approximation.  Every claim
below depends only on its non-negativity (and on exact values at
perfect squares, where the approximation is exact). -/
def hypotQ (x y : ℚ) : ℚ := ratSqrt (x * x + y * y)

/-- A terminal record (`{ id, name, t, dx, dy }` in component factories). -/
structure Terminal where
  id : String
  name : String
  t : String
  dx : ℚ
  dy : ℚ
deriving DecidableEq

/-- The `internalLinks` field of a component is either an array of name
pairs, or a function of the component evaluated at graph-build time
(`typeof c.internalLinks === "function" ? c.internalLinks(c) : c.internalLinks || []`).
The `fn` constructor records the function's value at the owning
component; component state is fixed during a single analysis pass, so
this value is exactly what every builder consumes. `undef` models a
missing field. -/
inductive InternalLinks where
  | undef : InternalLinks
  | arr : List (String × String) → InternalLinks
  | fn : List (String × String) → InternalLinks
deriving DecidableEq

/-- A placed component.  Render-only fields (`label`, `hidden`,
`showHandles`, per-variant `state`) are omitted: the analysis engine
reads only `id`, `type`, position, `terminals` and `internalLinks`
(state is already folded into the `InternalLinks.fn` value). -/
structure Component where
  id : String
  type : String
  x : ℚ
  y : ℚ
  terminals : List Terminal
  internalLinks : InternalLinks
deriving DecidableEq

/-- A wire. `kind` is a `ConductorKinds` string (`"GEN" | "L" | "N" | "E"`),
`fault` is `null | "open" | "hr"`.  Render-only fields (`label`,
`ampacityA`) are omitted. -/
structure Wire where
  id : String
  a : String
  b : String
  kind : String
  sizeMm2 : Option ℚ
  lengthM : Option ℚ
  fault : Option String
  switchedLive : Bool
  cableType : Option String
deriving DecidableEq

/-- JS truthiness of an optional numeric field (`undefined`, `null` and
`0` are falsy). -/
def truthyNum : Option ℚ → Bool
  | Option.none => false
  | some q => q != 0

/-- JS truthiness of an optional string field (`undefined`, `null` and
`""` are falsy). -/
def truthyStr : Option String → Bool
  | Option.none => false
  | some s => s != ""

/-- JS `x || y` on optional strings. -/
def jsOrStr (x y : Option String) : Option String :=
  if truthyStr x then x else y

/-- `LineTermTypes` (source line 952). -/
def lineTermTypes : List String := ["L", "LIN", "LOUT", "COM", "L1", "L2"]

/-- `NeutralTermTypes` (source line 953). -/
def neutralTermTypes : List String := ["N", "NIN", "NOUT"]

/-- `EarthTermTypes` (source line 954). -/
def earthTermTypes : List String := ["E", "EIN", "EOUT"]

/-- `PX_PER_M` (pixels per metre). -/
def pxPerM : ℚ := 100

/-- `CONTACT_R` (contact resistance per joint, Ω). -/
def contactR : ℚ := 0.02

/-- `R_PER_M[key] ?? 0.02` for the per-family fallback resistance. -/
def rPerMFam (key : String) : ℚ :=
  if key == "L" then 0.02 else if key == "N" then 0.02
  else if key == "E" then 0.03 else 0.02

/-- `getRPerM` / `R_PER_M_BY_SIZE` lookup. -/
def getRPerM (s : ℚ) : Option ℚ :=
  if s = 1.0 then some 0.0180
  else if s = 1.5 then some 0.0121
  else if s = 2.5 then some 0.00741
  else if s = 6.0 then some 0.00310
  else if s = 10.0 then some 0.00183
  else if s = 16.0 then some 0.00115
  else if s = 25.0 then some 0.00069
  else Option.none

/-- `terminalById`: first terminal (in component order) with the given id,
together with its owning component. -/
def terminalById (components : List Component) (tid : String) :
    Option (Component × Terminal) :=
  components.findSome? fun c =>
    (c.terminals.find? fun t => t.id == tid).map fun t => (c, t)

/-- `componentTerminalAbsPos`. -/
def componentTerminalAbsPos (c : Component) (t : Terminal) : ℚ × ℚ :=
  (c.x + t.dx, c.y + t.dy)

/-- `terminalAbsPosById`. -/
def terminalAbsPosById (components : List Component) (tid : String) :
    Option (ℚ × ℚ) :=
  (terminalById components tid).map fun ct => componentTerminalAbsPos ct.1 ct.2

/-- `pxDistanceBetweenTerminals`; `Option.none` models the JS `Infinity`
returned when either terminal is missing. -/
def pxDistanceBetweenTerminals (components : List Component) (a b : String) :
    Option ℚ :=
  match terminalAbsPosById components a, terminalAbsPosById components b with
  | some pa, some pb => some (hypotQ (pa.1 - pb.1) (pa.2 - pb.2))
  | _, _ => Option.none

/-- `termIdByName`. -/
def termIdByName (c : Component) (name : String) : Option String :=
  (c.terminals.find? fun t => t.name == name).map fun t => t.id

/-- All terminals of all components, in order (used to model the
`termTypeById` maps the graph builders construct). -/
def allTerminals (components : List Component) : List Terminal :=
  components.foldr (fun c acc => c.terminals ++ acc) []

/-- The `termTypeById` map of the graph builders: built with `Map.set`,
so the last terminal with a given id wins. -/
def termTypeById (components : List Component) (tid : String) : Option String :=
  ((allTerminals components).reverse.find? fun t => t.id == tid).map fun t => t.t

/-- `allowedTermTypes.has(termTypeById.get(x))`: a missing map entry
(`undefined`) is never a member of the set. -/
def optMemAllowed (o : Option String) (allowed : List String) : Bool :=
  match o with
  | some s => allowed.contains s
  | Option.none => false

/-- Internal-link list as consumed by every graph builder:
`typeof c.internalLinks === "function" ? c.internalLinks(c) : c.internalLinks || []`
(in `buildAdjacency` the array case is tested with `Array.isArray`,
with the same result on these three shapes). -/
def linksOf (c : Component) : List (String × String) :=
  match c.internalLinks with
  | InternalLinks.undef => []
  | InternalLinks.arr l => l
  | InternalLinks.fn l => l

/-- Unweighted graph: JS `Map<string, Set<string>>` as an
insertion-ordered association list of insertion-ordered dedup lists. -/
abbrev UGraph : Type := List (String × List String)

/-- `Map.get`. -/
def ugFind (g : UGraph) (k : String) : Option (List String) :=
  (List.find? (fun p => p.1 == k) g).map fun p => p.2

/-- Neighbour set of a node (`g.get(v) || []`). -/
def nbrsU (g : UGraph) (k : String) : List String :=
  (ugFind g k).getD []

/-- `if (!m.has(k)) m.set(k, new Set())`. -/
def ugEnsure (g : UGraph) (k : String) : UGraph :=
  if (ugFind g k).isSome then g else g ++ [(k, [])]

/-- JS `Set.add`. -/
def setAdd (l : List String) (x : String) : List String :=
  if l.contains x then l else l ++ [x]

/-- `m.get(k).add(v)`. -/
def ugInsertNbr (g : UGraph) (k v : String) : UGraph :=
  List.map (fun p => if p.1 == k then (p.1, setAdd p.2 v) else p) g

/-- The `add(m, a, b)` helper of `buildTypedSubgraph` / the `addEdge`
helper of `buildAdjacency`: ensure both keys, then insert each endpoint
into the other's neighbour set. -/
def ugAdd (g : UGraph) (a b : String) : UGraph :=
  ugInsertNbr (ugInsertNbr (ugEnsure (ugEnsure g a) b) a b) b a

/-- `buildTypedSubgraph` (source lines 1085–1114).  Wires contribute an
edge when both endpoint terminal types are in the allowed set; internal
links likewise.  Note: no wire-fault filtering happens here. -/
def buildTypedSubgraph (components : List Component) (wires : List Wire)
    (allowed : List String) : UGraph :=
  let gw := wires.foldl
    (fun g w =>
      if optMemAllowed (termTypeById components w.a) allowed
          && optMemAllowed (termTypeById components w.b) allowed then
        ugAdd g w.a w.b
      else g) []
  components.foldl
    (fun g c =>
      (linksOf c).foldl
        (fun g2 pr =>
          match c.terminals.find? (fun t => t.name == pr.1),
                c.terminals.find? (fun t => t.name == pr.2) with
          | some t1, some t2 =>
            if allowed.contains t1.t && allowed.contains t2.t then
              ugAdd g2 t1.id t2.id
            else g2
          | _, _ => g2) g) gw

/-- `buildAdjacency` (source lines 1318–1347): every wire contributes an
edge (no existence, family or fault checks), plus internal links. -/
def buildAdjacency (components : List Component) (wires : List Wire) : UGraph :=
  let gw := wires.foldl (fun g w => ugAdd g w.a w.b) []
  components.foldl
    (fun g c =>
      (linksOf c).foldl
        (fun g2 pr =>
          match c.terminals.find? (fun t => t.name == pr.1),
                c.terminals.find? (fun t => t.name == pr.2) with
          | some t1, some t2 => ugAdd g2 t1.id t2.id
          | _, _ => g2) g) gw

/-- A weighted edge entry (`{ to, w }`). -/
structure WEdge where
  dst : String
  w : ℚ
deriving DecidableEq

/-- Weighted graph: JS `Map<string, Array<{to, w}>>`. -/
abbrev WGraph : Type := List (String × List WEdge)

/-- `Map.get` on a weighted graph. -/
def wgFind (g : WGraph) (k : String) : Option (List WEdge) :=
  (List.find? (fun p => p.1 == k) g).map fun p => p.2

/-- Neighbour list of a node (`g.get(v) || []`). -/
def nbrsW (g : WGraph) (k : String) : List WEdge :=
  (wgFind g k).getD []

/-- `if (!g.has(k)) g.set(k, [])`. -/
def wgEnsure (g : WGraph) (k : String) : WGraph :=
  if (wgFind g k).isSome then g else g ++ [(k, [])]

/-- `g.get(k).push(e)`. -/
def wgPush (g : WGraph) (k : String) (e : WEdge) : WGraph :=
  List.map (fun p => if p.1 == k then (p.1, p.2 ++ [e]) else p) g

/-- The `add(a, b, w)` helper of `buildWeightedSubgraph`. -/
def wgAdd (g : WGraph) (a b : String) (w : ℚ) : WGraph :=
  wgPush (wgPush (wgEnsure (wgEnsure g a) b) a (WEdge.mk b w)) b (WEdge.mk a w)

/-- Per-wire resistance per metre:
`(w.sizeMm2 && getRPerM(w.sizeMm2)) ?? (R_PER_M[conductorKey] ?? 0.02)`.
A declared size of `0` is falsy, and `0 ?? x` is `0` in JS. -/
def wireRPerM (w : Wire) (key : String) : ℚ :=
  match w.sizeMm2 with
  | Option.none => rPerMFam key
  | some s =>
    if s = 0 then 0
    else match getRPerM s with
      | some r => r
      | Option.none => rPerMFam key

/-- Wire length in metres: explicit positive `lengthM` if present, else
geometric distance over `PX_PER_M`.  The `Infinity` case of
`pxDistanceBetweenTerminals` cannot arise at the call site (both
terminals exist whenever the family check passed); `0` stands in for it. -/
def wireDistM (components : List Component) (w : Wire) : ℚ :=
  let geom := (pxDistanceBetweenTerminals components w.a w.b).getD 0 / pxPerM
  match w.lengthM with
  | some l => if 0 < l then l else geom
  | Option.none => geom

/-- Weighted edge resistance of a wire:
`dist_m * rPerM + 2 * CONTACT_R`, plus `1` for a high-resistance fault. -/
def wireResistance (components : List Component) (w : Wire) (key : String) : ℚ :=
  let rw := wireDistM components w * wireRPerM w key + 2 * contactR
  if w.fault == some "hr" then rw + 1 else rw

/-- `buildWeightedSubgraph` (source lines 1116–1168).  Open-fault wires
are skipped; endpoint terminal families must be allowed; the wire kind
must be `GEN` or match the conductor key (`switchedLive` forces kind
`L`); internal links get the fixed contact resistance. -/
def buildWeightedSubgraph (components : List Component) (wires : List Wire)
    (allowed : List String) (key : String) : WGraph :=
  let gw := wires.foldl
    (fun g w =>
      if w.fault == some "open" then g
      else if !(optMemAllowed (termTypeById components w.a) allowed
          && optMemAllowed (termTypeById components w.b) allowed) then g
      else
        let k := if w.switchedLive then "L" else w.kind
        if !(k == "GEN" || (key == "L" && k == "L")
            || (key == "N" && k == "N") || (key == "E" && k == "E")) then g
        else wgAdd g w.a w.b (wireResistance components w key)) []
  components.foldl
    (fun g c =>
      (linksOf c).foldl
        (fun g2 pr =>
          match c.terminals.find? (fun t => t.name == pr.1),
                c.terminals.find? (fun t => t.name == pr.2) with
          | some t1, some t2 =>
            if allowed.contains t1.t && allowed.contains t2.t then
              wgAdd g2 t1.id t2.id contactR
            else g2
          | _, _ => g2) g) gw

/-- Total length of all neighbour lists (fuel bound for BFS). -/
def ugTotalLen (g : UGraph) : Nat :=
  (g.map fun p => p.2.length).sum

/-- One BFS round: pop the queue head, enqueue and mark every unseen
neighbour (`bfs` source lines 1349–1361). -/
def bfsLoop (adj : UGraph) : Nat → List String → List String → List String
  | 0, _, visited => visited
  | _+1, [], visited => visited
  | fuel+1, v :: rest, visited =>
    let st := (nbrsU adj v).foldl
      (fun (acc : List String × List String) u =>
        if acc.2.contains u then acc else (acc.1 ++ [u], acc.2 ++ [u]))
      (rest, visited)
    bfsLoop adj fuel st.1 st.2

/-- `bfs(adj, startId)`: the start node is seeded without a membership
check. -/
def bfs (adj : UGraph) (startId : String) : List String :=
  bfsLoop adj (ugTotalLen adj + 2) [startId] [startId]

/-- `bfsSet` instantiated at unweighted graphs (string edges): returns
the empty set when the start id is falsy or absent. -/
def bfsSetU (g : UGraph) (startId : String) : List String :=
  if startId == "" || (ugFind g startId).isNone then []
  else bfsLoop g (ugTotalLen g + 2) [startId] [startId]

/-- Total length of all neighbour lists of a weighted graph. -/
def wgTotalLen (g : WGraph) : Nat :=
  (g.map fun p => p.2.length).sum

/-- BFS round over a weighted graph (`bfsSet` follows `{to}` edges). -/
def bfsLoopW (g : WGraph) : Nat → List String → List String → List String
  | 0, _, visited => visited
  | _+1, [], visited => visited
  | fuel+1, v :: rest, visited =>
    let st := (nbrsW g v).foldl
      (fun (acc : List String × List String) e =>
        if acc.2.contains e.dst then acc else (acc.1 ++ [e.dst], acc.2 ++ [e.dst]))
      (rest, visited)
    bfsLoopW g fuel st.1 st.2

/-- `bfsSet` instantiated at weighted graphs. -/
def bfsSetW (g : WGraph) (startId : String) : List String :=
  if startId == "" || (wgFind g startId).isNone then []
  else bfsLoopW g (wgTotalLen g + 2) [startId] [startId]

/-- `requiredCSAForTerminal` (source lines 966–1038).  All connector,
Wago and junction variants fall through to the default `0`. -/
def requiredCSAForTerminal (comp : Component) (term : Terminal)
    (region : String) : ℚ :=
  let isE := earthTermTypes.contains term.t
  let isLN := lineTermTypes.contains term.t || neutralTermTypes.contains term.t
  if !isE && !isLN then 0
  else
    let uk := region == "UK"
    match comp.type with
    | "SOCKET_1G" | "SOCKET_2G" | "SOCKET_2G_SWITCHED" | "SOCKET_RCD_1G"
    | "OUTDOOR_SOCKET_RCD" => if isE then 1.5 else 2.5
    | "FCU_UNSWITCHED" | "FCU_SWITCHED" => if isE then 1.5 else 2.5
    | "CCU_45A" => if isE then 2.5 else 6.0
    | "EVSE_1P_7kW" => if isE then 2.5 else 6.0
    | "EVSE_3P_11_22kW" => if isE then 6.0 else 10.0
    | "LAMP" | "CEILING_ROSE" | "GARDEN_LIGHT" | "SWITCH_1WAY"
    | "SWITCH_2WAY" | "SWITCH_INTERMEDIATE" =>
      if uk then 1.0 else 1.5
    | "SUPPLY" => if uk then (if isE then 16.0 else 25.0) else 0
    | "CONSUMER_UNIT" =>
      if uk && (term.name == "L" || term.name == "N" || term.name == "E") then
        (if term.name == "E" then 16.0 else 25.0)
      else 0
    | "CONSUMER_UNIT_SPLIT" =>
      if uk && (term.name == "L" || term.name == "N" || term.name == "E") then
        (if term.name == "E" then 16.0 else 25.0)
      else 0
    | _ => 0

/-- `wireRequiredMinCSA` (source lines 1040–1052): maximum of the two
endpoint requirements and `0`, raised to `10` for UK bonding earth
cables.  Returns `0` when either endpoint terminal is missing. -/
def wireRequiredMinCSA (components : List Component) (w : Wire)
    (region : String) : ℚ :=
  match terminalById components w.a, terminalById components w.b with
  | some ta, some tb =>
    let ra := requiredCSAForTerminal ta.1 ta.2 region
    let rb := requiredCSAForTerminal tb.1 tb.2 region
    let req := max (max ra rb) 0
    if region == "UK" && w.cableType == some "Bonding" && w.kind == "E" then
      max req 10.0
    else req
  | _, _ => 0

/-- `isWireUndersized` (source lines 1054–1058).  A falsy declared size
(absent or `0`) or a falsy requirement yields `false`; the JS
`region === undefined` test is unreachable because the parameter has
default value `'UK'`. -/
def isWireUndersized (components : List Component) (w : Wire)
    (region : String) : Bool :=
  let req := wireRequiredMinCSA components w region
  match w.sizeMm2 with
  | Option.none => false
  | some s =>
    if s = 0 then false
    else if req = 0 then false
    else decide (s + 0.000001 < req)

/-- The claim's reading of the requirement (spec §4.6 without the
bonding clause): the bare maximum of the two endpoint requirements.
Stated from the claim's words for comparison with `wireRequiredMinCSA`. -/
def claimedEndpointMaxCSA (components : List Component) (w : Wire)
    (region : String) : ℚ :=
  match terminalById components w.a, terminalById components w.b with
  | some ta, some tb =>
    max (requiredCSAForTerminal ta.1 ta.2 region)
      (requiredCSAForTerminal tb.1 tb.2 region)
  | _, _ => 0

/-- The triple returned by `measureVoltage`. -/
structure VoltReading where
  Va : Option ℚ
  Vb : Option ℚ
  Vab : Option ℚ
deriving DecidableEq

/-- The reference component of `measureVoltage`: the first Supply, else
the first consumer unit (plain or split). -/
def findSupplyRef (components : List Component) : Option Component :=
  match components.find? (fun c => c.type == "SUPPLY") with
  | some c => some c
  | Option.none =>
    components.find? fun c =>
      c.type == "CONSUMER_UNIT" || c.type == "CONSUMER_UNIT_SPLIT"

/-- The supply terminal id lookup of `measureVoltage`:
`terminalById(components, termIdByName(supply, nm) || supply.terminals.find(t => t.t === ty)?.id)?.term?.id`. -/
def supplyRefTermId (components : List Component) (supply : Component)
    (nm ty : String) : Option String :=
  (jsOrStr (termIdByName supply nm)
      ((supply.terminals.find? fun t => t.t == ty).map fun t => t.id)).bind
    fun tid => (terminalById components tid).map fun ct => ct.2.id

/-- The Line-reachable set of `measureVoltage`
(`supplyL ? bfsSet(gL, supplyL) : new Set()`). -/
def mvReach (components : List Component) (wires : List Wire)
    (supply : Component) (nm ty : String) (allowed : List String) : List String :=
  let g := buildTypedSubgraph components wires allowed
  match supplyRefTermId components supply nm ty with
  | some s => if s == "" then [] else bfsSetU g s
  | Option.none => []

/-- `SYSTEM_V`. -/
def systemV : ℚ := 230

/-- The `nodeV` closure of `measureVoltage`: potential 230 on the
Line-reachable set, 0 on the Neutral- or Earth-reachable set, else
undefined. -/
def nodePotential (components : List Component) (wires : List Wire)
    (supply : Component) (tid : String) : Option ℚ :=
  if (mvReach components wires supply "L" "L" lineTermTypes).contains tid then
    some systemV
  else if (mvReach components wires supply "N" "N" neutralTermTypes).contains tid
      || (mvReach components wires supply "E" "E" earthTermTypes).contains tid then
    some 0
  else Option.none

/-- `measureVoltage` (source lines 1224–1246). -/
def measureVoltage (components : List Component) (wires : List Wire)
    (a b : String) : Option VoltReading :=
  match findSupplyRef components with
  | Option.none => Option.none
  | some supply =>
    match nodePotential components wires supply a,
        nodePotential components wires supply b with
    | some x, some y => some (VoltReading.mk (some x) (some y) (some |x - y|))
    | va, vb => some (VoltReading.mk va vb Option.none)

/-- The short-circuit part of the `analysis` memo (source lines
2566–2591): the first Supply component's `L`/`N`/`E` terminals seed BFS
over `buildAdjacency`; an `L–N` (resp. `L–E`) entry is pushed when the
Neutral (resp. Earth) terminal is Line-reachable.  The returned list
holds the `between` labels of `results.shorts`. -/
def analysisShorts (components : List Component) (wires : List Wire) :
    List String :=
  match components.find? (fun c => c.type == "SUPPLY") with
  | Option.none => []
  | some supply =>
    let supplyL := termIdByName supply "L"
    let supplyN := termIdByName supply "N"
    let supplyE := termIdByName supply "E"
    let adj := buildAdjacency components wires
    let reachL : List String :=
      match supplyL with
      | some l => if l == "" then [] else bfs adj l
      | Option.none => []
    let hitN : Bool :=
      match supplyN with
      | some n => reachL.contains n
      | Option.none => false
    let hitE : Bool :=
      match supplyE with
      | some e => reachL.contains e
      | Option.none => false
    (if truthyStr supplyL && hitN then ["L–N"] else [])
      ++ (if truthyStr supplyL && hitE then ["L–E"] else [])

/-- `projectPointOnSegment` (source lines 81–89): closest point of the
segment, with the clamped parameter. -/
def projectPointOnSegment (point segA segB : ℚ × ℚ) : ℚ × ℚ × ℚ :=
  let abx := segB.1 - segA.1
  let aby := segB.2 - segA.2
  let apx := point.1 - segA.1
  let apy := point.2 - segA.2
  let ab2 := abx * abx + aby * aby
  if ab2 = 0 then (segA.1, segA.2, 0)
  else
    let t := max 0 (min 1 ((apx * abx + apy * aby) / ab2))
    (segA.1 + t * abx, segA.2 + t * aby, t)

/-- Result record of `cutWireAt` (`{ junction, removedWireId, newWires }`). -/
structure CutResult where
  junction : Component
  removedWireId : String
  wire1 : Wire
  wire2 : Wire
deriving DecidableEq

/-- `mapKindToTerm` inside `cutWireAt`. -/
def mapKindToTerm (k : String) : Option String :=
  if k == "L" then some "L"
  else if k == "N" then some "N"
  else if k == "E" then some "E"
  else Option.none

/-- `cutWireAt` (source lines 2357–2447).  The source draws four fresh
random ids (`newId()`); they are passed here as parameters.  The
`createVisibleJunction` option only sets the render-only `hidden` flag
and is omitted with it.  Note that the endpoint-proximity test uses the
requested `point`, not its projection, and that the two replacement
wires are built by object spread (`{ ...wire, id, a/b }`), so every
other field of the original wire — including `lengthM` — is copied. -/
def cutWireAt (components : List Component) (wire : Wire) (point : ℚ × ℚ)
    (snapTolerance : ℚ)
    (junctionId terminal1Id terminal2Id newWireId1 newWireId2 : String) :
    Option CutResult :=
  match terminalById components wire.a, terminalById components wire.b with
  | some ta, some tb =>
    let pa := componentTerminalAbsPos ta.1 ta.2
    let pb := componentTerminalAbsPos tb.1 tb.2
    let distToA := hypotQ (point.1 - pa.1) (point.2 - pa.2)
    let distToB := hypotQ (point.1 - pb.1) (point.2 - pb.2)
    if distToA < snapTolerance || distToB < snapTolerance then Option.none
    else
      let proj := projectPointOnSegment point pa pb
      let terminalType :=
        if ta.2.t != "" then ta.2.t
        else match mapKindToTerm wire.kind with
          | some k => k
          | Option.none => "L"
      let junction : Component :=
        Component.mk junctionId "JUNCTION" proj.1 proj.2.1
          [Terminal.mk terminal1Id (terminalType ++ "1") terminalType (-2) 0,
            Terminal.mk terminal2Id (terminalType ++ "2") terminalType 2 0]
          (InternalLinks.arr [(terminalType ++ "1", terminalType ++ "2")])
      let wire1 : Wire := { wire with id := newWireId1, b := terminal1Id }
      let wire2 : Wire := { wire with id := newWireId2, a := terminal2Id }
      some (CutResult.mk junction wire.id wire1 wire2)
  | _, _ => Option.none

/-- State of the Dijkstra main loop: the `dist` and `prev` maps and the
`pq` set. -/
structure DState where
  dist : List (String × ℚ)
  prev : List (String × String)
  pq : List String
deriving DecidableEq

/-- Association-list `Map.get` for `dist` / `prev`. -/
def alFind {α : Type} (m : List (String × α)) (k : String) : Option α :=
  (List.find? (fun p => p.1 == k) m).map fun p => p.2

/-- Association-list `Map.set`. -/
def alSet {α : Type} (m : List (String × α)) (k : String) (v : α) :
    List (String × α) :=
  if (alFind m k).isSome then
    List.map (fun p => if p.1 == k then (p.1, v) else p) m
  else m ++ [(k, v)]

/-- `dist.get(v) ?? Infinity < best` with `Option.none` as `Infinity`. -/
def ltInf (d best : Option ℚ) : Bool :=
  match d, best with
  | some x, some y => decide (x < y)
  | some _, Option.none => true
  | Option.none, _ => false

/-- The extract-min scan of the Dijkstra loop: the first strictly
smaller element of the pq (in insertion order) wins. -/
def extractMin (dist : List (String × ℚ)) (pq : List String) : Option String :=
  (pq.foldl
    (fun (acc : Option String × Option ℚ) v =>
      if ltInf (alFind dist v) acc.2 then (some v, alFind dist v) else acc)
    (Option.none, Option.none)).1

/-- Edge relaxation over the popped node's neighbour list. -/
def relaxAll (g : WGraph) (u : String) (st : DState) : DState :=
  (nbrsW g u).foldl
    (fun st e =>
      match alFind st.dist u with
      | Option.none => st
      | some du =>
        if ltInf (some (du + e.w)) (alFind st.dist e.dst) then
          DState.mk (alSet st.dist e.dst (du + e.w))
            (alSet st.prev e.dst u) (setAdd st.pq e.dst)
        else st) st

/-- The Dijkstra `while (pq.size)` loop.  When `extractMin` returns
nothing the JS iteration leaves the state unchanged (it deletes `null`
and scans `g.get(null) || []`), which the fuel recursion mirrors. -/
def dijLoop (g : WGraph) (goal : String) : Nat → DState → DState
  | 0, st => st
  | fuel+1, st =>
    if st.pq.isEmpty then st
    else match extractMin st.dist st.pq with
      | Option.none => dijLoop g goal fuel st
      | some u =>
        let st1 := DState.mk st.dist st.prev (st.pq.erase u)
        if u == goal then st1
        else dijLoop g goal fuel (relaxAll g u st1)

/-- All node names a Dijkstra run from `s` can ever touch. -/
def wgNodes (g : WGraph) : List String :=
  ((g.map fun p => p.1)
    ++ ((g.foldr (fun p acc => p.2 ++ acc) ([] : List WEdge)).map fun e => e.dst)).dedup

/-- Result of `dijkstraWeighted`: `R = Option.none` models the JS
`Infinity`, `path = Option.none` the JS `null`. -/
structure DijkstraResult where
  R : Option ℚ
  path : Option (List String)
deriving DecidableEq

/-- Path reconstruction (`for (let v = goal; v !== undefined; v = prev.get(v))`). -/
def rebuildPath (prev : List (String × String)) (start goal : String) :
    Nat → String → List String → List String
  | 0, _, acc => acc
  | fuel+1, v, acc =>
    let acc1 := acc ++ [v]
    if v == start then acc1
    else match alFind prev v with
      | some p => rebuildPath prev start goal fuel p acc1
      | Option.none => acc1

/-- `dijkstraWeighted` (source lines 1171–1206). -/
def dijkstraWeighted (g : WGraph) (start goal : String) : DijkstraResult :=
  if start == "" || goal == "" || (wgFind g start).isNone
      || (wgFind g goal).isNone then
    DijkstraResult.mk Option.none Option.none
  else
    let st := dijLoop g goal ((start :: wgNodes g).length + 1)
      (DState.mk [(start, 0)] [] [start])
    match alFind st.dist goal with
    | Option.none => DijkstraResult.mk Option.none Option.none
    | some d =>
      some (rebuildPath st.prev start goal (st.dist.length + 1) goal []).reverse
        |> DijkstraResult.mk (some d)

/-- `measureResistance` (source lines 1209–1222): one Dijkstra run per
conductor family. -/
def measureResistance (components : List Component) (wires : List Wire)
    (a b : String) : Option ℚ × Option ℚ × Option ℚ :=
  ((dijkstraWeighted (buildWeightedSubgraph components wires lineTermTypes "L") a b).R,
    (dijkstraWeighted (buildWeightedSubgraph components wires neutralTermTypes "N") a b).R,
    (dijkstraWeighted (buildWeightedSubgraph components wires earthTermTypes "E") a b).R)

/-- The recursive `dfs(v, parent)` of `hasCycleThrough` with explicit
fuel; state is the visited set and the cycle flag. -/
def dfsAux (g : WGraph) : Nat → String → Option String →
    List String → Bool → List String × Bool
  | 0, _, _, visited, cyc => (visited, cyc)
  | fuel+1, v, parent, visited, cyc =>
    (nbrsW g v).foldl
      (fun (st : List String × Bool) e =>
        if some e.dst == parent then st
        else if st.1.contains e.dst then (st.1, true)
        else dfsAux g fuel e.dst (some v) st.1 st.2)
      (setAdd visited v, cyc)

/-- `hasCycleThrough` (source lines 1248–1261). -/
def hasCycleThrough (g : WGraph) (startId : String) : Bool :=
  if startId != "" && (wgFind g startId).isSome then
    (dfsAux g ((wgNodes g).length + 1) startId Option.none [] false).2
  else false

/-- Undirected-graph reachability (the mathematical notion used to state
claims about BFS results). -/
def ReachU (g : UGraph) (a b : String) : Prop :=
  Relation.ReflTransGen (fun x y => y ∈ nbrsU g x) a b

/-- Weighted-graph reachability along `{to}` fields. -/
def ReachW (g : WGraph) (a b : String) : Prop :=
  Relation.ReflTransGen (fun x y => ∃ e ∈ nbrsW g x, e.dst = y) a b

/-- Loop invariant of the Dijkstra main loop: `P` is the set of settled
(popped) nodes, `last` the most recently popped tentative distance.
`bound` over-approximates every node the loop can touch. -/
def DijInv (g : WGraph) (bound : List String) (P : Finset String) (last : ℚ)
    (st : DState) : Prop :=
  st.pq.Nodup
  ∧ (∀ v ∈ st.pq, ∃ d, alFind st.dist v = some d ∧ last ≤ d)
  ∧ (∀ v ∈ P, ∃ d, alFind st.dist v = some d ∧ d ≤ last)
  ∧ (∀ v ∈ P, v ∉ st.pq)
  ∧ (∀ v, (alFind st.dist v).isSome → v ∈ bound)
  ∧ (∀ v d, alFind st.dist v = some d → 0 ≤ d)
  ∧ (∀ v, (alFind st.dist v).isSome → v ∉ st.pq → v ∈ P)
  ∧ (∀ v, v ∈ P → ∀ e ∈ nbrsW g v, (alFind st.dist e.dst).isSome)

/-- Invariant threaded through the relaxation of the popped node `u`
(tentative distance `du`). -/
def RelaxInv (g : WGraph) (bound : List String) (P : Finset String)
    (u : String) (du : ℚ) (st : DState) : Prop :=
  alFind st.dist u = some du
  ∧ st.pq.Nodup
  ∧ u ∉ st.pq
  ∧ (∀ v ∈ st.pq, ∃ d, alFind st.dist v = some d ∧ du ≤ d)
  ∧ (∀ v ∈ P, ∃ d, alFind st.dist v = some d ∧ d ≤ du)
  ∧ (∀ v ∈ P, v ∉ st.pq)
  ∧ (∀ v, (alFind st.dist v).isSome → v ∈ bound)
  ∧ (∀ v d, alFind st.dist v = some d → 0 ≤ d)
  ∧ (∀ v, (alFind st.dist v).isSome → v ∉ st.pq → v ∈ P ∨ v = u)
  ∧ (∀ v, v ∈ P → ∀ e ∈ nbrsW g v, (alFind st.dist e.dst).isSome)

/-- Concatenation of all neighbour lists of an unweighted graph (used to
bound the work BFS can do). -/
def ugTargetsList (g : UGraph) : List String :=
  g.foldr (fun p acc => p.2 ++ acc) []

/-- The undirectedness property claimed for unweighted adjacency
structures: mutual neighbour membership. -/
def SymU (g : UGraph) : Prop :=
  ∀ x y, y ∈ nbrsU g x ↔ x ∈ nbrsU g y

/-- The undirectedness property claimed for weighted adjacency
structures. -/
def SymW (g : WGraph) : Prop :=
  ∀ x y, (∃ e ∈ nbrsW g x, e.dst = y) ↔ (∃ e ∈ nbrsW g y, e.dst = x)

/-! Concrete fixtures used by counterexamples and witnesses. -/

/-- Fixture: a component at the origin with a single Line terminal `t1`. -/
def fixCompA : Component :=
  Component.mk "ca" "X" 0 0 [Terminal.mk "t1" "A" "L" 0 0] InternalLinks.undef

/-- Fixture: a component at `(100, 0)` with a single Line terminal `t2`. -/
def fixCompB : Component :=
  Component.mk "cb" "X" 100 0 [Terminal.mk "t2" "B" "L" 0 0] InternalLinks.undef

/-- Fixture: a Line wire `t1 – t2` marked with an `open` fault. -/
def fixOpenWire : Wire :=
  Wire.mk "w1" "t1" "t2" "L" Option.none Option.none (some "open") false Option.none

/-- Fixture: a healthy 2.5 mm² Line wire `t1 – t2` with explicit
`lengthM = 5` and cable type `T&E`. -/
def fixCutWire : Wire :=
  Wire.mk "wc" "t1" "t2" "L" (some 2.5) (some 5) Option.none false (some "T&E")

/-- Fixture: a bare Line wire `t1 – t2` with no optional fields. -/
def fixPlainWire : Wire :=
  Wire.mk "wp" "t1" "t2" "L" Option.none Option.none Option.none false Option.none

/-- Fixture: an earth connector block with one terminal (requirement 0). -/
def fixConnE1 : Component :=
  Component.mk "ce1" "CONNECTOR_E3" 0 0 [Terminal.mk "e1" "E1" "E" 0 0]
    (InternalLinks.arr [])

/-- Fixture: a second earth connector block (requirement 0). -/
def fixConnE2 : Component :=
  Component.mk "ce2" "CONNECTOR_E3" 100 0 [Terminal.mk "e2" "E1" "E" 0 0]
    (InternalLinks.arr [])

/-- Fixture: a 6 mm² UK bonding earth cable between the two connectors. -/
def fixBondWire : Wire :=
  Wire.mk "wb" "e1" "e2" "E" (some 6) Option.none Option.none false (some "Bonding")

/-- Fixture: a Supply component with terminals `L`, `N`, `E` (as built by
`makeSupply`). -/
def fixSupply : Component :=
  Component.mk "s" "SUPPLY" 40 40
    [Terminal.mk "sL" "L" "L" 10 10, Terminal.mk "sN" "N" "N" 10 40,
      Terminal.mk "sE" "E" "E" 10 70]
    (InternalLinks.arr [])

/-- Fixture: a Lamp component with terminals `L`, `N`, `E`. -/
def fixLamp : Component :=
  Component.mk "lp" "LAMP" 200 40
    [Terminal.mk "lL" "L" "L" 10 10, Terminal.mk "lN" "N" "N" 10 40,
      Terminal.mk "lE" "E" "E" 10 70]
    (InternalLinks.arr [])

/-- Fixture: a generic wire shorting the supply's `L` and `N` terminals. -/
def fixShortWire : Wire :=
  Wire.mk "ws" "sL" "sN" "GEN" Option.none Option.none Option.none false Option.none

/-- Fixture: a Line wire from the supply to the lamp. -/
def fixWireLL : Wire :=
  Wire.mk "wll" "sL" "lL" "L" Option.none (some 2) Option.none false Option.none

/-- Fixture: a Neutral wire from the supply to the lamp. -/
def fixWireNN : Wire :=
  Wire.mk "wnn" "sN" "lN" "N" Option.none (some 2) Option.none false Option.none

/-- Fixture: weighted graph `x –1– y –2– z`. -/
def fixWG : WGraph := wgAdd (wgAdd [] "x" "y" 1) "y" "z" 2

/-- Fixture: `fixWG` plus a disconnected edge `p –1– q`. -/
def fixWG2 : WGraph := wgAdd fixWG "p" "q" 1

/-- Fixture: three single-terminal Line components `u1 u2 u3`. -/
def fixRingComps : List Component :=
  [Component.mk "c1" "R1" 0 0 [Terminal.mk "u1" "A" "L" 0 0] InternalLinks.undef,
    Component.mk "c2" "R2" 0 0 [Terminal.mk "u2" "A" "L" 0 0] InternalLinks.undef,
    Component.mk "c3" "R3" 0 0 [Terminal.mk "u3" "A" "L" 0 0] InternalLinks.undef]

/-- Fixture ring wires `u1–u2`, `u2–u3`, `u3–u1`. -/
def fixRw1 : Wire := Wire.mk "r1" "u1" "u2" "L" Option.none (some 1) Option.none false Option.none

/-- Second ring wire. -/
def fixRw2 : Wire := Wire.mk "r2" "u2" "u3" "L" Option.none (some 1) Option.none false Option.none

/-- Third ring wire. -/
def fixRw3 : Wire := Wire.mk "r3" "u3" "u1" "L" Option.none (some 1) Option.none false Option.none

/-- Neighbour names of a node (the `{to}` fields in list order); the DFS
of `hasCycleThrough` only ever inspects these. -/
def dstsW (g : WGraph) (v : String) : List String :=
  (nbrsW g v).map WEdge.dst

/-- Degree of a node: the length of its adjacency list. -/
def degW (g : WGraph) (v : String) : Nat :=
  (nbrsW g v).length

/-- Number of directed edge copies from `u` to `v`. -/
def cntW (g : WGraph) (u v : String) : Nat :=
  (dstsW g u).count v

/-- Multiset symmetry: every edge appears with the same multiplicity in
both directions (the builders add edges in symmetric pairs). -/
def MSymW (g : WGraph) : Prop :=
  ∀ u v, cntW g u v = cntW g v u

/-- Reachability along edges avoiding a visited list. -/
def RAv (g : WGraph) (avoid : List String) (a b : String) : Prop :=
  Relation.ReflTransGen (fun x y => y ∈ dstsW g x ∧ y ∉ avoid) a b

/-- `X` is the connected component of `s`: it contains `s`, is closed
under edges, and all its members are reachable from `s`. -/
def IsComponent (g : WGraph) (s : String) (X : Finset String) : Prop :=
  s ∈ X ∧ (∀ x ∈ X, ∀ d ∈ dstsW g x, d ∈ X) ∧ ∀ x ∈ X, ReachW g s x

/-- Weighted graphs that agree up to reordering: the same keys and, at
every node, the same multiset of neighbour names. -/
def EqvW (g1 g2 : WGraph) : Prop :=
  (∀ k, (wgFind g1 k).isSome ↔ (wgFind g2 k).isSome)
  ∧ ∀ v, (dstsW g1 v).Perm (dstsW g2 v)

/-- Parent multiplicity: how many copies of the parent endpoint sit in
`v`'s list (`0` for the root call). -/
def cntPar (g : WGraph) (v : String) : Option String → Nat
  | Option.none => 0
  | some pv => cntW g v pv

/-- Occurrences of the (optional) parent name in a name list. -/
def cntIn : Option String → List String → Nat
  | Option.none, _ => 0
  | some pv, l => l.count pv

/-- Cycle excess of the region `{v} ∪ Δ` explored by a DFS call on `v`
with parent `p`: degree sum minus twice (size − 1) minus the skipped
parent copies.  Zero exactly when the region hangs off the parent edge
as a tree. -/
def excZ (g : WGraph) (v : String) (p : Option String) (Δ : Finset String) : ℤ :=
  (∑ x ∈ insert v Δ, (degW g x : ℤ)) - 2 * (((insert v Δ).card : ℤ) - 1)
    - (cntPar g v p : ℤ)

/-- Running cycle-excess of a partial scan of `v`'s list: `Δ` the nodes
added so far, `D` the neighbour values freshly discovered by the scan. -/
def scanCS (g : WGraph) (v : String) (Δ D : Finset String) : ℤ :=
  (∑ x ∈ Δ, (degW g x : ℤ)) + 2 * (D.card : ℤ) - 2 * (Δ.card : ℤ)
    - ∑ d ∈ D, (cntW g d v : ℤ)

end WireLab

/-! Theorems. -/

namespace WireLab

theorem ratSqrt_nonneg (q : ℚ) : 0 ≤ ratSqrt q := by
  unfold ratSqrt
  split
  · exact le_refl 0
  · positivity

theorem hypotQ_nonneg (x y : ℚ) : 0 ≤ hypotQ x y := ratSqrt_nonneg _

theorem ratSqrt_natCast (n : ℕ) (h : 0 < n) : ratSqrt (n : ℚ) = (isqrt n : ℚ) := by
  unfold ratSqrt
  have hn : ¬ ((n : ℚ) ≤ 0) := by
    rw [not_le]
    exact_mod_cast h
  rw [if_neg hn]
  push_cast
  norm_num

theorem foldl_eq_foldl_filter {α β : Type} (f : β → α → β) (p : α → Bool)
    (h : ∀ g a, p a = false → f g a = g) :
    ∀ (l : List α) (init : β), l.foldl f init = (l.filter p).foldl f init := by
  intro l
  induction l with
  | nil => intro init; rfl
  | cons a l ih =>
    intro init
    by_cases hp : p a = true
    · simp [List.filter, hp, ih]
    · rw [Bool.not_eq_true] at hp
      simp [List.filter, hp, h init a hp, ih]

/-- C1 (amended): a wire with fault `"open"` contributes nothing to the
weighted family graph - filtering such wires out leaves the build
unchanged. -/
theorem buildWeightedSubgraph_skips_open (components : List Component)
    (wires : List Wire) (allowed : List String) (key : String) :
    buildWeightedSubgraph components wires allowed key
      = buildWeightedSubgraph components
          (wires.filter fun w => !(w.fault == some "open")) allowed key := by
  unfold buildWeightedSubgraph
  dsimp only
  congr 1
  apply foldl_eq_foldl_filter
  intro g w hw
  have hw1 : (w.fault == some "open") = true := by
    revert hw
    cases w.fault == some "open" <;> simp
  rw [hw1]
  rfl

/-- C1 counterexample: an open-fault wire between two Line terminals
still makes its endpoints adjacent and mutually reachable in the
unweighted typed subgraph, contradicting the unqualified claim. -/
theorem c1_counterexample :
    fixOpenWire.fault = some "open"
    ∧ "t2" ∈ nbrsU (buildTypedSubgraph [fixCompA, fixCompB] [fixOpenWire] lineTermTypes) "t1"
    ∧ "t2" ∈ bfsSetU (buildTypedSubgraph [fixCompA, fixCompB] [fixOpenWire] lineTermTypes) "t1"
    ∧ "t1" ∈ bfsSetU (buildTypedSubgraph [fixCompA, fixCompB] [fixOpenWire] lineTermTypes) "t2" := by
  refine ⟨rfl, ?_, ?_, ?_⟩ <;> decide

/-- C3 evaluation: cutting a wire with an explicit `lengthM` of `5`
produces two replacement wires that BOTH inherit `lengthM = 5` by the
object spread, while kind, size and cable type are inherited as
documented - the code contradicts its own comment that the explicit
length is omitted. -/
theorem c3_eval :
    (cutWireAt [fixCompA, fixCompB] fixCutWire (50, 0) 8 "j" "j1" "j2" "nw1" "nw2").map
      (fun r => (r.wire1.lengthM, r.wire2.lengthM,
        r.wire1.kind, r.wire1.sizeMm2, r.wire1.cableType,
        r.wire2.kind, r.wire2.sizeMm2, r.wire2.cableType))
    = some (some 5, some 5, "L", some 2.5, some "T&E", "L", some 2.5, some "T&E") := by
  have h2500 : ratSqrt 2500 = 50 := by
    rw [show (2500 : ℚ) = ((2500 : ℕ) : ℚ) by norm_num, ratSqrt_natCast 2500 (by norm_num)]
    norm_num [show isqrt 2500 = 50 from by decide]
  have hta : terminalById [fixCompA, fixCompB] "t1"
      = some (fixCompA, Terminal.mk "t1" "A" "L" 0 0) := rfl
  have htb : terminalById [fixCompA, fixCompB] "t2"
      = some (fixCompB, Terminal.mk "t2" "B" "L" 0 0) := rfl
  simp only [cutWireAt, show fixCutWire.a = "t1" from rfl,
    show fixCutWire.b = "t2" from rfl, hta, htb]
  simp only [componentTerminalAbsPos, fixCompA, fixCompB]
  norm_num [hypotQ, h2500, projectPointOnSegment, mapKindToTerm, fixCutWire]

end WireLab

namespace WireLab

theorem ratSqrt_one : ratSqrt 1 = 1 := by
  rw [show (1 : ℚ) = ((1 : ℕ) : ℚ) by norm_num, ratSqrt_natCast 1 (by norm_num)]
  norm_num [show isqrt 1 = 1 from by decide]

theorem ratSqrt_zero : ratSqrt 0 = 0 := by
  norm_num [ratSqrt]

theorem ratSqrt_1600 : ratSqrt 1600 = 40 := by
  rw [show (1600 : ℚ) = ((1600 : ℕ) : ℚ) by norm_num, ratSqrt_natCast 1600 (by norm_num)]
  norm_num [show isqrt 1600 = 40 from by decide]

theorem ratSqrt_11600 : ratSqrt 11600 = 107 := by
  rw [show (11600 : ℚ) = ((11600 : ℕ) : ℚ) by norm_num, ratSqrt_natCast 11600 (by norm_num)]
  norm_num [show isqrt 11600 = 107 from by decide]

/-- C4 amended: the cut is rejected whenever the REQUESTED point is within
tolerance of either endpoint (`cutWireAt` is pure, so a `none` result
entails no mutation of any collection). -/
theorem cutWireAt_near_endpoint_none (components : List Component) (wire : Wire)
    (point : ℚ × ℚ) (tol : ℚ) (j t1 t2 n1 n2 : String)
    (ta tb : Component × Terminal)
    (ha : terminalById components wire.a = some ta)
    (hb : terminalById components wire.b = some tb)
    (hnear :
      hypotQ (point.1 - (componentTerminalAbsPos ta.1 ta.2).1)
          (point.2 - (componentTerminalAbsPos ta.1 ta.2).2) < tol
      ∨ hypotQ (point.1 - (componentTerminalAbsPos tb.1 tb.2).1)
          (point.2 - (componentTerminalAbsPos tb.1 tb.2).2) < tol) :
    cutWireAt components wire point tol j t1 t2 n1 n2 = Option.none := by
  unfold cutWireAt
  rw [ha, hb]
  dsimp only
  rcases hnear with h | h <;> simp [h]

/-- C4 witness: a requested point within tolerance of endpoint `t1`
makes the cut return null. -/
theorem c4_witness :
    cutWireAt [fixCompA, fixCompB] fixPlainWire (1, 0) 8 "j" "j1" "j2" "nw1" "nw2"
      = Option.none := by
  apply cutWireAt_near_endpoint_none [fixCompA, fixCompB] fixPlainWire
    (1, 0) 8 "j" "j1" "j2" "nw1" "nw2"
    (fixCompA, Terminal.mk "t1" "A" "L" 0 0)
    (fixCompB, Terminal.mk "t2" "B" "L" 0 0)
  · rfl
  · rfl
  · left
    norm_num [componentTerminalAbsPos, fixCompA, hypotQ, ratSqrt_one]

/-- C4 counterexample: a point far above the segment whose projection
coincides with an endpoint is NOT rejected - the code measures the
endpoint distance from the raw input point, not its projection. -/
theorem c4_counterexample :
    terminalAbsPosById [fixCompA, fixCompB] fixPlainWire.a = some (0, 0)
    ∧ terminalAbsPosById [fixCompA, fixCompB] fixPlainWire.b = some (100, 0)
    ∧ projectPointOnSegment (0, 40) (0, 0) (100, 0) = (0, 0, 0)
    ∧ hypotQ ((0 : ℚ) - 0) ((0 : ℚ) - 0) < 8
    ∧ (cutWireAt [fixCompA, fixCompB] fixPlainWire (0, 40) 8
        "j" "j1" "j2" "nw1" "nw2").isSome = true := by
  have hta : terminalById [fixCompA, fixCompB] "t1"
      = some (fixCompA, Terminal.mk "t1" "A" "L" 0 0) := rfl
  have htb : terminalById [fixCompA, fixCompB] "t2"
      = some (fixCompB, Terminal.mk "t2" "B" "L" 0 0) := rfl
  refine ⟨?_, ?_, ?_, ?_, ?_⟩
  · simp only [terminalAbsPosById, show fixPlainWire.a = "t1" from rfl, hta,
      Option.map_some]
    norm_num [componentTerminalAbsPos, fixCompA]
  · simp only [terminalAbsPosById, show fixPlainWire.b = "t2" from rfl, htb,
      Option.map_some]
    norm_num [componentTerminalAbsPos, fixCompB]
  · norm_num [projectPointOnSegment]
  · norm_num [hypotQ, ratSqrt_zero]
  · simp only [cutWireAt, show fixPlainWire.a = "t1" from rfl,
      show fixPlainWire.b = "t2" from rfl, hta, htb]
    simp only [componentTerminalAbsPos, fixCompA, fixCompB]
    norm_num [hypotQ, ratSqrt_1600, ratSqrt_11600]

/-- C8 amended: full characterisation of `isWireUndersized`: false without
a (truthy) declared size; with a declared size, undersized exactly when
the size is below the required minimum (max of the endpoint requirements,
raised to 10 mm² for UK bonding earth cables) by more than the 1e-6
epsilon, the zero requirement counting as unconstrained. -/
theorem isWireUndersized_characterization (components : List Component)
    (w : Wire) (region : String) :
    (w.sizeMm2 = Option.none → isWireUndersized components w region = false)
    ∧ (∀ s, w.sizeMm2 = some s →
        (isWireUndersized components w region = true
          ↔ s ≠ 0 ∧ wireRequiredMinCSA components w region ≠ 0
            ∧ s + 0.000001 < wireRequiredMinCSA components w region))
    ∧ (∀ ta tb, terminalById components w.a = some ta →
        terminalById components w.b = some tb →
        wireRequiredMinCSA components w region
          = (if region == "UK" && w.cableType == some "Bonding" && w.kind == "E"
              then max (max (claimedEndpointMaxCSA components w region) 0) 10
              else max (claimedEndpointMaxCSA components w region) 0)) := by
  refine ⟨?_, ?_, ?_⟩
  · intro h
    simp [isWireUndersized, h]
  · intro s hs
    simp only [isWireUndersized, hs]
    by_cases h0 : s = 0
    · simp [h0]
    · by_cases hr : wireRequiredMinCSA components w region = 0
      · simp [h0, hr]
      · simp [h0, hr]
  · intro ta tb ha hb
    simp only [wireRequiredMinCSA, claimedEndpointMaxCSA, ha, hb]
    split
    · norm_num
    · norm_num

/-- C8 witness: a 6 mm2 UK bonding earth wire between unconstrained
connector terminals is reported undersized (requirement raised to 10),
while the bare endpoint maximum is 0. -/
theorem c8_witness :
    isWireUndersized [fixConnE1, fixConnE2] fixBondWire "UK" = true := by
  have hra : requiredCSAForTerminal fixConnE1 (Terminal.mk "e1" "E1" "E" 0 0) "UK" = 0 := rfl
  have hrb : requiredCSAForTerminal fixConnE2 (Terminal.mk "e2" "E1" "E" 0 0) "UK" = 0 := rfl
  have hreq : wireRequiredMinCSA [fixConnE1, fixConnE2] fixBondWire "UK" = 10 := by
    simp only [wireRequiredMinCSA,
      show terminalById [fixConnE1, fixConnE2] fixBondWire.a
        = some (fixConnE1, Terminal.mk "e1" "E1" "E" 0 0) from rfl,
      show terminalById [fixConnE1, fixConnE2] fixBondWire.b
        = some (fixConnE2, Terminal.mk "e2" "E1" "E" 0 0) from rfl, hra, hrb]
    norm_num [fixBondWire]
  exact ((isWireUndersized_characterization [fixConnE1, fixConnE2] fixBondWire
    "UK").2.1 6 rfl).mpr (by rw [hreq]; norm_num)

/-- C8 counterexample: for the UK bonding earth fixture the requirement
is not the bare maximum of the endpoint requirements (0) but 10, and the
wire is flagged undersized. -/
theorem c8_counterexample :
    claimedEndpointMaxCSA [fixConnE1, fixConnE2] fixBondWire "UK" = 0
    ∧ fixBondWire.sizeMm2 = some 6
    ∧ ¬ ((6 : ℚ) + 0.000001 < claimedEndpointMaxCSA [fixConnE1, fixConnE2] fixBondWire "UK")
    ∧ isWireUndersized [fixConnE1, fixConnE2] fixBondWire "UK" = true := by
  have hra : requiredCSAForTerminal fixConnE1 (Terminal.mk "e1" "E1" "E" 0 0) "UK" = 0 := rfl
  have hrb : requiredCSAForTerminal fixConnE2 (Terminal.mk "e2" "E1" "E" 0 0) "UK" = 0 := rfl
  have hcl : claimedEndpointMaxCSA [fixConnE1, fixConnE2] fixBondWire "UK" = 0 := rfl
  have hreq : wireRequiredMinCSA [fixConnE1, fixConnE2] fixBondWire "UK" = 10 := by
    simp only [wireRequiredMinCSA,
      show terminalById [fixConnE1, fixConnE2] fixBondWire.a
        = some (fixConnE1, Terminal.mk "e1" "E1" "E" 0 0) from rfl,
      show terminalById [fixConnE1, fixConnE2] fixBondWire.b
        = some (fixConnE2, Terminal.mk "e2" "E1" "E" 0 0) from rfl, hra, hrb]
    norm_num [fixBondWire]
  have hund : isWireUndersized [fixConnE1, fixConnE2] fixBondWire "UK" = true := by
    simp only [isWireUndersized, hreq, show fixBondWire.sizeMm2 = some 6 from rfl]
    norm_num
  exact ⟨hcl, rfl, by rw [hcl]; norm_num, hund⟩

end WireLab

namespace WireLab

theorem mem_setAdd (l : List String) (x y : String) :
    y ∈ setAdd l x ↔ y ∈ l ∨ y = x := by
  unfold setAdd
  by_cases h : l.contains x
  · rw [if_pos h]
    rw [List.contains_eq_any_beq] at h
    simp only [List.any_eq_true, beq_iff_eq] at h
    obtain ⟨c, hc, rfl⟩ := h
    constructor
    · exact Or.inl
    · rintro (hy | rfl) <;> assumption
  · rw [if_neg h]
    simp [List.mem_append]

theorem ugFind_ugEnsure (g : UGraph) (k x : String) :
    ugFind (ugEnsure g k) x
      = if x = k then some ((ugFind g k).getD []) else ugFind g x := by
  unfold ugEnsure
  by_cases h : (ugFind g k).isSome
  · rw [if_pos h]
    obtain ⟨l, hl⟩ := Option.isSome_iff_exists.mp h
    by_cases hxk : x = k
    · subst hxk; simp [hl]
    · simp [hxk]
  · rw [if_neg h]
    rw [Option.not_isSome_iff_eq_none] at h
    unfold ugFind at h ⊢
    rw [List.find?_append]
    rw [Option.map_eq_none'] at h
    by_cases hxk : x = k
    · subst hxk
      rw [h]
      simp [List.find?]
    · rw [if_neg hxk]
      have hkx2 : (k == x) = false := by
        simp only [beq_eq_false_iff_ne, ne_eq]
        exact fun hh => hxk hh.symm
      simp [List.find?, hkx2]

theorem find?_update {α : Type} (g : List (String × α)) (k x : String) (f : α → α) :
    List.find? (fun p => p.1 == x)
        (g.map fun p => if p.1 == k then (p.1, f p.2) else p)
      = if x = k then
          (List.find? (fun p => p.1 == x) g).map fun p => (p.1, f p.2)
        else List.find? (fun p => p.1 == x) g := by
  induction g with
  | nil => by_cases hxk : x = k <;> simp [hxk]
  | cons p g ih =>
    by_cases hpk : p.1 = k
    · have hcons : List.map (fun q => if q.1 == k then (q.1, f q.2) else q) (p :: g)
          = (p.1, f p.2) :: List.map (fun q => if q.1 == k then (q.1, f q.2) else q) g := by
        simp [hpk]
      rw [hcons]
      by_cases hpx : p.1 = x
      · have hxk : x = k := by rw [← hpx, hpk]
        rw [List.find?_cons_of_pos _ (by simp [hpx]),
          List.find?_cons_of_pos _ (by simp [hpx]), if_pos hxk]
        rfl
      · have hxk : ¬ x = k := fun hh => hpx (by rw [hpk, ← hh])
        rw [List.find?_cons_of_neg _ (by simp [hpx]),
          List.find?_cons_of_neg _ (by simp [hpx]), ih, if_neg hxk]
    · have hcons : List.map (fun q => if q.1 == k then (q.1, f q.2) else q) (p :: g)
          = p :: List.map (fun q => if q.1 == k then (q.1, f q.2) else q) g := by
        simp [hpk]
      rw [hcons]
      by_cases hpx : p.1 = x
      · have hxk : ¬ x = k := fun hh => hpk (by rw [hpx, hh])
        rw [List.find?_cons_of_pos _ (by simp [hpx]),
          List.find?_cons_of_pos _ (by simp [hpx]), if_neg hxk]
      · rw [List.find?_cons_of_neg _ (by simp [hpx]),
          List.find?_cons_of_neg _ (by simp [hpx]), ih]

theorem ugFind_ugInsertNbr (g : UGraph) (k v x : String) :
    ugFind (ugInsertNbr g k v) x
      = if x = k then (ugFind g k).map (fun l => setAdd l v) else ugFind g x := by
  unfold ugFind ugInsertNbr
  rw [find?_update g k x (fun l => setAdd l v)]
  by_cases hxk : x = k
  · subst hxk
    rw [if_pos rfl, if_pos rfl, Option.map_map, Option.map_map]
    rfl
  · rw [if_neg hxk, if_neg hxk]

end WireLab

namespace WireLab

theorem nbrsU_ugAdd (g : UGraph) (a b x : String) :
    nbrsU (ugAdd g a b) x
      = if x = b then
          (if x = a then setAdd (setAdd (nbrsU g x) b) a
            else setAdd (nbrsU g x) a)
        else if x = a then setAdd (nbrsU g x) b
        else nbrsU g x := by
  unfold ugAdd nbrsU
  by_cases hxb : x = b <;> by_cases hxa : x = a
  · subst hxb
    subst hxa
    simp only [ugFind_ugInsertNbr, ugFind_ugEnsure, eq_self_iff_true, if_true]
    cases ugFind g x <;> simp
  · subst hxb
    have hax : ¬ (x = a) := hxa
    simp only [ugFind_ugInsertNbr, ugFind_ugEnsure, eq_self_iff_true, if_true, hxa,
      if_false]
    cases ugFind g x <;> simp
  · subst hxa
    have hbx : ¬ (b = x) := fun hh => hxb hh.symm
    simp only [ugFind_ugInsertNbr, ugFind_ugEnsure, eq_self_iff_true, if_true, hxb,
      hbx, if_false]
    cases hg : ugFind g b <;> cases hg2 : ugFind g x <;> simp
  · simp only [ugFind_ugInsertNbr, ugFind_ugEnsure, hxb, hxa, if_false]

theorem mem_nbrsU_ugAdd (g : UGraph) (a b x y : String) :
    y ∈ nbrsU (ugAdd g a b) x
      ↔ y ∈ nbrsU g x ∨ (x = a ∧ y = b) ∨ (x = b ∧ y = a) := by
  rw [nbrsU_ugAdd]
  by_cases hxb : x = b
  · subst hxb
    by_cases hxa : x = a
    · subst hxa
      simp [mem_setAdd]
    · simp [hxa, mem_setAdd]
  · by_cases hxa : x = a
    · subst hxa
      simp [hxb, mem_setAdd]
    · simp [hxb, hxa]

theorem wgFind_wgEnsure (g : WGraph) (k x : String) :
    wgFind (wgEnsure g k) x
      = if x = k then some ((wgFind g k).getD []) else wgFind g x := by
  unfold wgEnsure
  by_cases h : (wgFind g k).isSome
  · rw [if_pos h]
    obtain ⟨l, hl⟩ := Option.isSome_iff_exists.mp h
    by_cases hxk : x = k
    · subst hxk; simp [hl]
    · simp [hxk]
  · rw [if_neg h]
    rw [Option.not_isSome_iff_eq_none] at h
    unfold wgFind at h ⊢
    rw [List.find?_append]
    rw [Option.map_eq_none'] at h
    by_cases hxk : x = k
    · subst hxk
      rw [h]
      simp [List.find?]
    · rw [if_neg hxk]
      have hkx2 : (k == x) = false := by
        simp only [beq_eq_false_iff_ne, ne_eq]
        exact fun hh => hxk hh.symm
      simp [List.find?, hkx2]

theorem wgFind_wgPush (g : WGraph) (k : String) (e : WEdge) (x : String) :
    wgFind (wgPush g k e) x
      = if x = k then (wgFind g k).map (fun l => l ++ [e]) else wgFind g x := by
  unfold wgFind wgPush
  rw [show (fun p : String × List WEdge => if p.1 == k then (p.1, p.2 ++ [e]) else p)
      = (fun p : String × List WEdge =>
          if p.1 == k then (p.1, (fun l => l ++ [e]) p.2) else p) from rfl]
  rw [find?_update g k x (fun l => l ++ [e])]
  by_cases hxk : x = k
  · subst hxk
    rw [if_pos rfl, if_pos rfl, Option.map_map, Option.map_map]
    rfl
  · rw [if_neg hxk, if_neg hxk]

theorem nbrsW_wgAdd (g : WGraph) (a b : String) (w : ℚ) (x : String) :
    nbrsW (wgAdd g a b w) x
      = nbrsW g x ++ (if x = a then [WEdge.mk b w] else [])
          ++ (if x = b then [WEdge.mk a w] else []) := by
  unfold wgAdd nbrsW
  by_cases hxb : x = b <;> by_cases hxa : x = a
  · subst hxb
    subst hxa
    simp only [wgFind_wgPush, wgFind_wgEnsure, eq_self_iff_true, if_true]
    cases wgFind g x <;> simp
  · subst hxb
    simp only [wgFind_wgPush, wgFind_wgEnsure, eq_self_iff_true, if_true, hxa,
      if_false]
    cases wgFind g x <;> simp
  · subst hxa
    have hbx : ¬ (b = x) := fun hh => hxb hh.symm
    simp only [wgFind_wgPush, wgFind_wgEnsure, eq_self_iff_true, if_true, hxb,
      hbx, if_false]
    cases hg : wgFind g b <;> cases hg2 : wgFind g x <;> simp
  · simp only [wgFind_wgPush, wgFind_wgEnsure, hxb, hxa, if_false]
    simp

theorem mem_nbrsW_wgAdd (g : WGraph) (a b : String) (w : ℚ) (x : String) (e : WEdge) :
    e ∈ nbrsW (wgAdd g a b w) x
      ↔ e ∈ nbrsW g x ∨ (x = a ∧ e = WEdge.mk b w) ∨ (x = b ∧ e = WEdge.mk a w) := by
  rw [nbrsW_wgAdd]
  by_cases hxb : x = b <;> by_cases hxa : x = a <;> simp [hxb, hxa]

theorem foldl_preserves {α β : Type} (P : β → Prop) (f : β → α → β)
    (h : ∀ st x, P st → P (f st x)) :
    ∀ (l : List α) (init : β), P init → P (l.foldl f init) := by
  intro l
  induction l with
  | nil => intro init hi; exact hi
  | cons a l ih => intro init hi; exact ih (f init a) (h init a hi)

theorem symU_nil : SymU [] := by
  intro x y
  simp [nbrsU, ugFind]

theorem symU_ugAdd (g : UGraph) (a b : String) (h : SymU g) :
    SymU (ugAdd g a b) := by
  intro x y
  rw [mem_nbrsU_ugAdd, mem_nbrsU_ugAdd, h x y]
  tauto

theorem symW_nil : SymW [] := by
  intro x y
  simp [nbrsW, wgFind]

theorem symW_wgAdd (g : WGraph) (a b : String) (w : ℚ) (h : SymW g) :
    SymW (wgAdd g a b w) := by
  have key : ∀ x y, (∃ e ∈ nbrsW (wgAdd g a b w) x, e.dst = y) →
      (∃ e ∈ nbrsW (wgAdd g a b w) y, e.dst = x) := by
    intro x y
    rintro ⟨e, he, hdst⟩
    rw [mem_nbrsW_wgAdd] at he
    rcases he with he | ⟨hxa, hea⟩ | ⟨hxb, heb⟩
    · obtain ⟨e2, he2, hd2⟩ := (h x y).mp ⟨e, he, hdst⟩
      exact ⟨e2, (mem_nbrsW_wgAdd g a b w y e2).mpr (Or.inl he2), hd2⟩
    · have hyb : y = b := by rw [← hdst, hea]
      refine ⟨WEdge.mk a w, (mem_nbrsW_wgAdd g a b w y (WEdge.mk a w)).mpr
        (Or.inr (Or.inr ⟨hyb, rfl⟩)), hxa.symm⟩
    · have hya : y = a := by rw [← hdst, heb]
      refine ⟨WEdge.mk b w, (mem_nbrsW_wgAdd g a b w y (WEdge.mk b w)).mpr
        (Or.inr (Or.inl ⟨hya, rfl⟩)), hxb.symm⟩
  intro x y
  exact ⟨key x y, key y x⟩

theorem buildTypedSubgraph_symU (components : List Component) (wires : List Wire)
    (allowed : List String) : SymU (buildTypedSubgraph components wires allowed) := by
  unfold buildTypedSubgraph
  dsimp only
  apply foldl_preserves SymU
  · intro st c hst
    apply foldl_preserves SymU
    · intro st2 pr hst2
      repeat' split
      all_goals first
        | exact hst2
        | exact symU_ugAdd _ _ _ hst2
    · exact hst
  · apply foldl_preserves SymU
    · intro st w hst
      repeat' split
      all_goals first
        | exact hst
        | exact symU_ugAdd _ _ _ hst
    · exact symU_nil

theorem buildAdjacency_symU (components : List Component) (wires : List Wire) :
    SymU (buildAdjacency components wires) := by
  unfold buildAdjacency
  dsimp only
  apply foldl_preserves SymU
  · intro st c hst
    apply foldl_preserves SymU
    · intro st2 pr hst2
      repeat' split
      all_goals first
        | exact hst2
        | exact symU_ugAdd _ _ _ hst2
    · exact hst
  · apply foldl_preserves SymU
    · intro st w hst
      exact symU_ugAdd _ _ _ hst
    · exact symU_nil

theorem buildWeightedSubgraph_symW (components : List Component)
    (wires : List Wire) (allowed : List String) (key : String) :
    SymW (buildWeightedSubgraph components wires allowed key) := by
  unfold buildWeightedSubgraph
  dsimp only
  apply foldl_preserves SymW
  · intro st c hst
    apply foldl_preserves SymW
    · intro st2 pr hst2
      repeat' split
      all_goals first
        | exact hst2
        | exact symW_wgAdd _ _ _ _ hst2
    · exact hst
  · apply foldl_preserves SymW
    · intro st w hst
      repeat' split
      all_goals first
        | exact hst
        | exact symW_wgAdd _ _ _ _ hst
    · exact symW_nil

/-- C9: every adjacency structure produced by the three graph builders is
symmetric — `b` is a neighbour of `a` iff `a` is a neighbour of `b`. -/
theorem graph_builders_symmetric_c9 (components : List Component)
    (wires : List Wire) (allowed : List String) (key : String) (a b : String) :
    (b ∈ nbrsU (buildTypedSubgraph components wires allowed) a
      ↔ a ∈ nbrsU (buildTypedSubgraph components wires allowed) b)
    ∧ (b ∈ nbrsU (buildAdjacency components wires) a
      ↔ a ∈ nbrsU (buildAdjacency components wires) b)
    ∧ ((∃ e ∈ nbrsW (buildWeightedSubgraph components wires allowed key) a,
          e.dst = b)
      ↔ ∃ e ∈ nbrsW (buildWeightedSubgraph components wires allowed key) b,
          e.dst = a) :=
  ⟨buildTypedSubgraph_symU components wires allowed a b,
    buildAdjacency_symU components wires a b,
    buildWeightedSubgraph_symW components wires allowed key a b⟩

end WireLab

namespace WireLab

theorem contains_iff_mem (l : List String) (x : String) :
    l.contains x = true ↔ x ∈ l := by
  rw [List.contains_eq_any_beq]
  simp only [List.any_eq_true, beq_iff_eq]
  constructor
  · rintro ⟨c, hc, rfl⟩
    exact hc
  · intro h
    exact ⟨x, h, rfl⟩

/-- C10: swapping the probes swaps `Va` and `Vb` and leaves `Vab`
unchanged, and a non-null `Vab` is non-negative. -/
theorem measureVoltage_probe_symm_c10 (components : List Component)
    (wires : List Wire) (a b : String) :
    measureVoltage components wires b a
      = (measureVoltage components wires a b).map
          (fun r => VoltReading.mk r.Vb r.Va r.Vab)
    ∧ (∀ r q, measureVoltage components wires a b = some r →
        r.Vab = some q → 0 ≤ q) := by
  constructor
  · unfold measureVoltage
    cases findSupplyRef components with
    | none => rfl
    | some supply =>
      dsimp only
      cases ha : nodePotential components wires supply a <;>
        cases hb : nodePotential components wires supply b <;>
          simp [ha, hb, abs_sub_comm]
  · intro r q hr hq
    unfold measureVoltage at hr
    cases hs : findSupplyRef components with
    | none =>
      rw [hs] at hr
      exact absurd hr (by simp)
    | some supply =>
      rw [hs] at hr
      dsimp only at hr
      cases ha : nodePotential components wires supply a <;>
        cases hb : nodePotential components wires supply b <;>
          rw [ha, hb] at hr <;> rw [← Option.some.inj hr] at hq <;>
          simp only at hq
      · exact absurd hq (by simp)
      · exact absurd hq (by simp)
      · exact absurd hq (by simp)
      · rw [← Option.some.inj hq]
        exact abs_nonneg _

theorem nodePotential_of_line (components : List Component) (wires : List Wire)
    (supply : Component) (tid : String)
    (h : tid ∈ mvReach components wires supply "L" "L" lineTermTypes) :
    nodePotential components wires supply tid = some 230 := by
  unfold nodePotential
  rw [if_pos ((contains_iff_mem _ _).mpr h)]
  rfl

theorem nodePotential_of_ne (components : List Component) (wires : List Wire)
    (supply : Component) (tid : String)
    (hL : tid ∉ mvReach components wires supply "L" "L" lineTermTypes)
    (h : tid ∈ mvReach components wires supply "N" "N" neutralTermTypes
      ∨ tid ∈ mvReach components wires supply "E" "E" earthTermTypes) :
    nodePotential components wires supply tid = some 0 := by
  unfold nodePotential
  rw [if_neg, if_pos]
  · rcases h with h | h
    · rw [Bool.or_eq_true]
      exact Or.inl ((contains_iff_mem _ _).mpr h)
    · rw [Bool.or_eq_true]
      exact Or.inr ((contains_iff_mem _ _).mpr h)
  · intro hc
    exact hL ((contains_iff_mem _ _).mp hc)

theorem nodePotential_of_floating (components : List Component) (wires : List Wire)
    (supply : Component) (tid : String)
    (hL : tid ∉ mvReach components wires supply "L" "L" lineTermTypes)
    (hN : tid ∉ mvReach components wires supply "N" "N" neutralTermTypes)
    (hE : tid ∉ mvReach components wires supply "E" "E" earthTermTypes) :
    nodePotential components wires supply tid = Option.none := by
  unfold nodePotential
  rw [if_neg, if_neg]
  · rw [Bool.or_eq_true]
    rintro (hc | hc)
    · exact hN ((contains_iff_mem _ _).mp hc)
    · exact hE ((contains_iff_mem _ _).mp hc)
  · intro hc
    exact hL ((contains_iff_mem _ _).mp hc)

theorem measureVoltage_fields (components : List Component) (wires : List Wire)
    (a b : String) (supply : Component) (r : VoltReading)
    (hs : findSupplyRef components = some supply)
    (hr : measureVoltage components wires a b = some r) :
    r.Va = nodePotential components wires supply a
    ∧ r.Vb = nodePotential components wires supply b
    ∧ ((r.Va = Option.none ∨ r.Vb = Option.none) → r.Vab = Option.none) := by
  unfold measureVoltage at hr
  rw [hs] at hr
  dsimp only at hr
  cases ha : nodePotential components wires supply a <;>
    cases hb : nodePotential components wires supply b <;>
      rw [ha, hb] at hr <;> rw [← Option.some.inj hr] <;> simp

/-- C7: `measureVoltage` is null exactly when no Supply (nor, failing
that, consumer-unit) reference exists; otherwise each probe is read as
230 on the Line-reachable set, 0 on the Neutral- or Earth-reachable set
and undefined elsewhere, and an undefined probe makes `Vab` null rather
than an error. -/
theorem measureVoltage_spec_c7 (components : List Component) (wires : List Wire)
    (a b : String) :
    (measureVoltage components wires a b = Option.none
      ↔ findSupplyRef components = Option.none)
    ∧ (∀ supply r, findSupplyRef components = some supply →
        measureVoltage components wires a b = some r →
        (a ∈ mvReach components wires supply "L" "L" lineTermTypes →
          r.Va = some 230)
        ∧ (a ∉ mvReach components wires supply "L" "L" lineTermTypes →
            (a ∈ mvReach components wires supply "N" "N" neutralTermTypes
              ∨ a ∈ mvReach components wires supply "E" "E" earthTermTypes) →
          r.Va = some 0)
        ∧ (a ∉ mvReach components wires supply "L" "L" lineTermTypes →
            a ∉ mvReach components wires supply "N" "N" neutralTermTypes →
            a ∉ mvReach components wires supply "E" "E" earthTermTypes →
          r.Va = Option.none)
        ∧ (b ∈ mvReach components wires supply "L" "L" lineTermTypes →
          r.Vb = some 230)
        ∧ (b ∉ mvReach components wires supply "L" "L" lineTermTypes →
            (b ∈ mvReach components wires supply "N" "N" neutralTermTypes
              ∨ b ∈ mvReach components wires supply "E" "E" earthTermTypes) →
          r.Vb = some 0)
        ∧ (b ∉ mvReach components wires supply "L" "L" lineTermTypes →
            b ∉ mvReach components wires supply "N" "N" neutralTermTypes →
            b ∉ mvReach components wires supply "E" "E" earthTermTypes →
          r.Vb = Option.none)
        ∧ ((r.Va = Option.none ∨ r.Vb = Option.none) → r.Vab = Option.none)) := by
  constructor
  · unfold measureVoltage
    cases hs : findSupplyRef components with
    | none => simp
    | some supply =>
      dsimp only
      cases nodePotential components wires supply a <;>
        cases nodePotential components wires supply b <;> simp
  · intro supply r hs hr
    obtain ⟨hva, hvb, hnull⟩ := measureVoltage_fields components wires a b supply r hs hr
    refine ⟨?_, ?_, ?_, ?_, ?_, ?_, hnull⟩
    · intro h
      rw [hva, nodePotential_of_line components wires supply a h]
    · intro hL h
      rw [hva, nodePotential_of_ne components wires supply a hL h]
    · intro hL hN hE
      rw [hva, nodePotential_of_floating components wires supply a hL hN hE]
    · intro h
      rw [hvb, nodePotential_of_line components wires supply b h]
    · intro hL h
      rw [hvb, nodePotential_of_ne components wires supply b hL h]
    · intro hL hN hE
      rw [hvb, nodePotential_of_floating components wires supply b hL hN hE]

end WireLab

namespace WireLab

/-- Evaluation of `measureVoltage` on the supply-and-lamp fixture. -/
theorem measureVoltage_fix_eval :
    measureVoltage [fixSupply, fixLamp] [fixWireLL, fixWireNN] "lL" "lN"
      = some (VoltReading.mk (some 230) (some 0) (some 230)) := by
  have hna : nodePotential [fixSupply, fixLamp] [fixWireLL, fixWireNN] fixSupply "lL"
      = some 230 :=
    nodePotential_of_line _ _ _ _ (by decide)
  have hnb : nodePotential [fixSupply, fixLamp] [fixWireLL, fixWireNN] fixSupply "lN"
      = some 0 :=
    nodePotential_of_ne _ _ _ _ (by decide) (Or.inl (by decide))
  unfold measureVoltage
  rw [show findSupplyRef [fixSupply, fixLamp] = some fixSupply from rfl]
  dsimp only
  rw [hna, hnb]
  norm_num

/-- C10 witness: swapping the probe terminals on the fixture circuit
swaps `Va` and `Vb` and leaves `Vab = 230` unchanged. -/
theorem c10_witness :
    measureVoltage [fixSupply, fixLamp] [fixWireLL, fixWireNN] "lN" "lL"
      = (measureVoltage [fixSupply, fixLamp] [fixWireLL, fixWireNN] "lL" "lN").map
          (fun r => VoltReading.mk r.Vb r.Va r.Vab)
    ∧ (0 : ℚ) ≤ 230 := by
  have h := measureVoltage_probe_symm_c10 [fixSupply, fixLamp] [fixWireLL, fixWireNN]
    "lL" "lN"
  exact ⟨h.1, h.2 (VoltReading.mk (some 230) (some 0) (some 230)) 230
    measureVoltage_fix_eval rfl⟩

/-- C7 witness: the fixture circuit yields `Va = 230`, `Vb = 0`,
`Vab = 230` at the lamp probes, and the null/undefined branches behave
as claimed. -/
theorem c7_witness :
    measureVoltage ([] : List Component) [] "x" "y" = Option.none
    ∧ (VoltReading.mk (some (230 : ℚ)) (some 0) (some 230)).Va = some 230 := by
  constructor
  · exact (measureVoltage_spec_c7 [] [] "x" "y").1.mpr rfl
  · exact ((measureVoltage_spec_c7 [fixSupply, fixLamp] [fixWireLL, fixWireNN]
      "lL" "lN").2 fixSupply (VoltReading.mk (some 230) (some 0) (some 230)) rfl
      measureVoltage_fix_eval).1 (by decide)

end WireLab

namespace WireLab

theorem mem_targets_of_mem (g : UGraph) (p : String × List String) (u : String)
    (hp : p ∈ g) (hu : u ∈ p.2) : u ∈ ugTargetsList g := by
  induction g with
  | nil => cases hp
  | cons q g ih =>
    unfold ugTargetsList at ih ⊢
    rcases List.mem_cons.mp hp with rfl | hp2
    · exact List.mem_append.mpr (Or.inl hu)
    · exact List.mem_append.mpr (Or.inr (ih hp2))

theorem nbrsU_subset_targets (g : UGraph) (v u : String)
    (h : u ∈ nbrsU g v) : u ∈ ugTargetsList g := by
  unfold nbrsU ugFind at h
  cases hf : List.find? (fun p => p.1 == v) g with
  | none => rw [hf] at h; cases h
  | some p =>
    rw [hf] at h
    exact mem_targets_of_mem g p u (List.mem_of_find?_eq_some hf) h

theorem ugTargetsList_length (g : UGraph) :
    (ugTargetsList g).length = ugTotalLen g := by
  induction g with
  | nil => rfl
  | cons p g ih =>
    unfold ugTargetsList ugTotalLen at ih ⊢
    simp [ih]

/-- The neighbour-scanning fold of one BFS round appends the same block of
fresh nodes to both the queue and the visited list. -/
theorem bfsFold_spec (ns : List String) :
    ∀ (q v : List String),
      ∃ new, (ns.foldl
          (fun (acc : List String × List String) u =>
            if acc.2.contains u then acc else (acc.1 ++ [u], acc.2 ++ [u]))
          (q, v))
        = (q ++ new, v ++ new)
      ∧ (∀ u ∈ new, u ∈ ns ∧ u ∉ v)
      ∧ (∀ u ∈ ns, u ∈ v ++ new)
      ∧ new.Nodup := by
  induction ns with
  | nil =>
    intro q v
    refine ⟨[], by rw [List.foldl_nil, List.append_nil, List.append_nil], ?_, ?_,
      List.nodup_nil⟩
    · intro u hu
      exact absurd hu (List.not_mem_nil u)
    · intro u hu
      exact absurd hu (List.not_mem_nil u)
  | cons u ns ih =>
    intro q v
    by_cases hu : v.contains u
    · obtain ⟨new, heq, hnew, hns, hnd⟩ := ih q v
      refine ⟨new, ?_, ?_, ?_, hnd⟩
      · rw [List.foldl_cons]
        dsimp only
        rw [if_pos hu]
        exact heq
      · intro z hz
        exact ⟨List.mem_cons_of_mem u (hnew z hz).1, (hnew z hz).2⟩
      · intro z hz
        rcases List.mem_cons.mp hz with rfl | hz2
        · exact List.mem_append.mpr (Or.inl ((contains_iff_mem v z).mp hu))
        · exact hns z hz2
    · obtain ⟨new, heq, hnew, hns, hnd⟩ := ih (q ++ [u]) (v ++ [u])
      refine ⟨[u] ++ new, ?_, ?_, ?_, ?_⟩
      · simp only [List.foldl_cons, hu, if_false, Bool.false_eq_true, ← List.append_assoc]
        exact heq
      · intro z hz
        rcases List.mem_append.mp hz with hz1 | hz2
        · rw [List.mem_singleton.mp hz1]
          exact ⟨List.mem_cons_self u ns, fun hc => hu ((contains_iff_mem v u).mpr hc)⟩
        · obtain ⟨hz3, hz4⟩ := hnew z hz2
          refine ⟨List.mem_cons_of_mem u hz3, fun hc => hz4 (List.mem_append.mpr (Or.inl hc))⟩
      · intro z hz
        rcases List.mem_cons.mp hz with rfl | hz2
        · simp
        · have := hns z hz2
          simp only [List.mem_append, List.mem_singleton] at this ⊢
          tauto
      · refine List.Nodup.cons ?_ hnd
        intro hc
        exact (hnew u hc).2 (List.mem_append.mpr (Or.inr (List.mem_singleton.mpr rfl)))

/-- Fresh-node budget: targets not yet visited. -/
theorem bfs_budget_drop (adj : UGraph) (visited new : List String)
    (hnd : new.Nodup) (hdisj : ∀ u ∈ new, u ∉ visited)
    (htgt : ∀ u ∈ new, u ∈ ugTargetsList adj) :
    ((ugTargetsList adj).toFinset \ (visited ++ new).toFinset).card + new.length
      ≤ ((ugTargetsList adj).toFinset \ visited.toFinset).card := by
  classical
  have h1 : new.toFinset ⊆ (ugTargetsList adj).toFinset \ visited.toFinset := by
    intro u hu
    rw [List.mem_toFinset] at hu
    rw [Finset.mem_sdiff, List.mem_toFinset, List.mem_toFinset]
    exact ⟨htgt u hu, hdisj u hu⟩
  have h2 : (ugTargetsList adj).toFinset \ (visited ++ new).toFinset
      = ((ugTargetsList adj).toFinset \ visited.toFinset) \ new.toFinset := by
    ext u
    simp [Finset.mem_sdiff, List.mem_toFinset, List.mem_append]
    tauto
  rw [h2, Finset.card_sdiff h1]
  have h3 : new.toFinset.card = new.length := List.toFinset_card_of_nodup hnd
  have h4 : new.toFinset.card ≤ ((ugTargetsList adj).toFinset \ visited.toFinset).card :=
    Finset.card_le_card h1
  omega

/-- Completeness core: given enough fuel, the BFS loop result is closed
under adjacency and contains the initial visited set. -/
theorem bfsLoop_closed (adj : UGraph) :
    ∀ (fuel : Nat) (q visited : List String),
      (∀ z ∈ q, z ∈ visited) →
      (∀ z ∈ visited, z ∉ q → ∀ u ∈ nbrsU adj z, u ∈ visited) →
      q.length + ((ugTargetsList adj).toFinset \ visited.toFinset).card ≤ fuel →
      (∀ z ∈ visited, z ∈ bfsLoop adj fuel q visited)
      ∧ (∀ z ∈ bfsLoop adj fuel q visited, ∀ u ∈ nbrsU adj z,
          u ∈ bfsLoop adj fuel q visited) := by
  intro fuel
  induction fuel with
  | zero =>
    intro q visited hqv hinv hfuel
    have hq : q = [] := by
      cases q with
      | nil => rfl
      | cons a q => simp at hfuel
    subst hq
    unfold bfsLoop
    exact ⟨fun z hz => hz, fun z hz u hu => hinv z hz (by simp) u hu⟩
  | succ f ih =>
    intro q visited hqv hinv hfuel
    cases q with
    | nil =>
      unfold bfsLoop
      exact ⟨fun z hz => hz, fun z hz u hu => hinv z hz (by simp) u hu⟩
    | cons v rest =>
      obtain ⟨new, heq, hnew, hns, hnd⟩ := bfsFold_spec (nbrsU adj v) rest visited
      have hstep : bfsLoop adj (f + 1) (v :: rest) visited
          = bfsLoop adj f (rest ++ new) (visited ++ new) := by
        have hdef : bfsLoop adj (f + 1) (v :: rest) visited
            = bfsLoop adj f
                ((nbrsU adj v).foldl
                  (fun (acc : List String × List String) u =>
                    if acc.2.contains u then acc
                    else (acc.1 ++ [u], acc.2 ++ [u])) (rest, visited)).1
                ((nbrsU adj v).foldl
                  (fun (acc : List String × List String) u =>
                    if acc.2.contains u then acc
                    else (acc.1 ++ [u], acc.2 ++ [u])) (rest, visited)).2 := rfl
        rw [hdef, heq]
      rw [hstep]
      have hq2 : ∀ z ∈ rest ++ new, z ∈ visited ++ new := by
        intro z hz
        rcases List.mem_append.mp hz with hz1 | hz2
        · exact List.mem_append.mpr (Or.inl (hqv z (List.mem_cons_of_mem v hz1)))
        · exact List.mem_append.mpr (Or.inr hz2)
      have hinv2 : ∀ z ∈ visited ++ new, z ∉ rest ++ new →
          ∀ u ∈ nbrsU adj z, u ∈ visited ++ new := by
        intro z hz hzq u hu
        rcases List.mem_append.mp hz with hz1 | hz2
        · by_cases hzv : z = v
          · subst hzv
            exact hns u hu
          · have hznq : z ∉ v :: rest := by
              intro hc
              rcases List.mem_cons.mp hc with rfl | hc2
              · exact hzv rfl
              · exact hzq (List.mem_append.mpr (Or.inl hc2))
            exact List.mem_append.mpr (Or.inl (hinv z hz1 hznq u hu))
        · exact absurd (List.mem_append.mpr (Or.inr hz2)) hzq
      have hfuel2 : (rest ++ new).length
          + ((ugTargetsList adj).toFinset \ (visited ++ new).toFinset).card ≤ f := by
        have hdrop := bfs_budget_drop adj visited new hnd
          (fun u hu => (hnew u hu).2)
          (fun u hu => nbrsU_subset_targets adj v u (hnew u hu).1)
        rw [List.length_append]
        simp only [List.length_cons] at hfuel
        omega
      obtain ⟨hsub, hclosed⟩ := ih (rest ++ new) (visited ++ new) hq2 hinv2 hfuel2
      exact ⟨fun z hz => hsub z (List.mem_append.mpr (Or.inl hz)), hclosed⟩

/-- BFS completeness: every node reachable from the start is in the
computed set. -/
theorem bfs_complete (adj : UGraph) (s t : String) (h : ReachU adj s t) :
    t ∈ bfs adj s := by
  unfold bfs
  have hfuel : [s].length
      + ((ugTargetsList adj).toFinset \ [s].toFinset).card ≤ ugTotalLen adj + 2 := by
    have h1 : ((ugTargetsList adj).toFinset \ [s].toFinset).card
        ≤ (ugTargetsList adj).toFinset.card := Finset.card_le_card (Finset.sdiff_subset)
    have h2 : (ugTargetsList adj).toFinset.card ≤ (ugTargetsList adj).length :=
      List.toFinset_card_le _
    have h3 := ugTargetsList_length adj
    simp only [List.length_singleton]
    omega
  obtain ⟨hsub, hclosed⟩ := bfsLoop_closed adj (ugTotalLen adj + 2) [s] [s]
    (fun z hz => hz) (fun z hz hznq => absurd hz hznq) hfuel
  induction h with
  | refl => exact hsub s (List.mem_singleton.mpr rfl)
  | tail hreach hedge ih => exact hclosed _ ih _ hedge

/-- C2: whenever the supply's Neutral terminal is reachable from its Line
terminal in the analysis graph, the shorts list reports an L–N entry. -/
theorem analysis_reports_ln_short_c2 (components : List Component)
    (wires : List Wire) (supply : Component) (l n : String)
    (hsup : components.find? (fun c => c.type == "SUPPLY") = some supply)
    (hl : termIdByName supply "L" = some l) (hl0 : l ≠ "")
    (hn : termIdByName supply "N" = some n)
    (hreach : ReachU (buildAdjacency components wires) l n) :
    "L–N" ∈ analysisShorts components wires := by
  unfold analysisShorts
  rw [hsup]
  dsimp only
  rw [hl, hn]
  have hmem : n ∈ bfs (buildAdjacency components wires) l := bfs_complete _ _ _ hreach
  have hl0b : (l == "") = false := by
    simp only [beq_eq_false_iff_ne, ne_eq]
    exact hl0
  simp only [hl0b, Bool.false_eq_true, if_false, truthyStr, bne_iff_ne, ne_eq, hl0,
    not_false_iff, (contains_iff_mem _ _).mpr hmem]
  simp [hl0]

/-- C2 witness: on a supply shorted L-to-N by a GEN wire the analysis
reports an L-N short. -/
theorem c2_witness : "L–N" ∈ analysisShorts [fixSupply] [fixShortWire] := by
  apply analysis_reports_ln_short_c2 [fixSupply] [fixShortWire] fixSupply "sL" "sN"
  · rfl
  · rfl
  · decide
  · rfl
  · exact Relation.ReflTransGen.single (by decide)

end WireLab

namespace WireLab

theorem alFind_alSet {α : Type} (m : List (String × α)) (k : String) (v : α)
    (x : String) :
    alFind (alSet m k v) x = if x = k then some v else alFind m x := by
  unfold alSet
  by_cases h : (alFind m k).isSome
  · rw [if_pos h]
    unfold alFind at h ⊢
    rw [show (fun p : String × α => if p.1 == k then (p.1, v) else p)
        = (fun p : String × α => if p.1 == k then (p.1, (fun _ => v) p.2) else p)
        from rfl, find?_update m k x (fun _ => v)]
    by_cases hxk : x = k
    · subst hxk
      rw [if_pos rfl, if_pos rfl]
      rw [Option.isSome_map'] at h
      obtain ⟨p, hp⟩ := Option.isSome_iff_exists.mp h
      rw [hp]
      rfl
    · rw [if_neg hxk, if_neg hxk]
  · rw [if_neg h]
    rw [Option.not_isSome_iff_eq_none] at h
    unfold alFind at h ⊢
    rw [Option.map_eq_none'] at h
    rw [List.find?_append]
    by_cases hxk : x = k
    · subst hxk
      rw [h, if_pos rfl]
      simp [List.find?]
    · rw [if_neg hxk]
      have hkx2 : (k == x) = false := by
        simp only [beq_eq_false_iff_ne, ne_eq]
        exact fun hh => hxk hh.symm
      simp [List.find?, hkx2]

theorem ltInf_none_left (o : Option ℚ) : ltInf Option.none o = false := rfl

theorem extractMinGo_spec (dist : List (String × ℚ)) :
    ∀ (l : List String) (acc : Option String × Option ℚ) (seen : List String),
      ((acc = (Option.none, Option.none) ∧ ∀ v ∈ seen, alFind dist v = Option.none)
        ∨ (∃ u du, acc = (some u, some du) ∧ u ∈ seen ∧ alFind dist u = some du
            ∧ ∀ v ∈ seen, ∀ dv, alFind dist v = some dv → du ≤ dv)) →
      ((l.foldl (fun (acc : Option String × Option ℚ) v =>
            if ltInf (alFind dist v) acc.2 then (some v, alFind dist v) else acc) acc)
          = (Option.none, Option.none)
          ∧ ∀ v ∈ seen ++ l, alFind dist v = Option.none)
        ∨ (∃ u du, (l.foldl (fun (acc : Option String × Option ℚ) v =>
            if ltInf (alFind dist v) acc.2 then (some v, alFind dist v) else acc) acc)
            = (some u, some du) ∧ u ∈ seen ++ l ∧ alFind dist u = some du
            ∧ ∀ v ∈ seen ++ l, ∀ dv, alFind dist v = some dv → du ≤ dv) := by
  intro l
  induction l with
  | nil =>
    intro acc seen hinv
    simpa using hinv
  | cons w l ih =>
    intro acc seen hinv
    rw [List.foldl_cons, show seen ++ w :: l = (seen ++ [w]) ++ l by simp]
    apply ih
    cases hw : alFind dist w with
    | none =>
      rw [ltInf_none_left, if_neg (by simp)]
      rcases hinv with ⟨ha, hall⟩ | ⟨u, du, ha, hu, hdu, hmin⟩
      · left
        refine ⟨ha, ?_⟩
        intro v hv
        rcases List.mem_append.mp hv with hv1 | hv2
        · exact hall v hv1
        · rw [List.mem_singleton.mp hv2]
          exact hw
      · right
        refine ⟨u, du, ha, List.mem_append.mpr (Or.inl hu), hdu, ?_⟩
        intro v hv dv hdv
        rcases List.mem_append.mp hv with hv1 | hv2
        · exact hmin v hv1 dv hdv
        · rw [List.mem_singleton.mp hv2] at hdv
          rw [hw] at hdv
          cases hdv
    | some dw =>
      rcases hinv with ⟨ha, hall⟩ | ⟨u, du, ha, hu, hdu, hmin⟩
      · rw [ha]
        have hcond : ltInf (some dw) ((Option.none : Option String),
            (Option.none : Option ℚ)).2 = true := rfl
        rw [if_pos hcond]
        right
        refine ⟨w, dw, rfl, List.mem_append.mpr (Or.inr (List.mem_singleton.mpr rfl)),
          hw, ?_⟩
        intro v hv dv hdv
        rcases List.mem_append.mp hv with hv1 | hv2
        · rw [hall v hv1] at hdv
          cases hdv
        · rw [List.mem_singleton.mp hv2] at hdv
          rw [hw] at hdv
          rw [← Option.some.inj hdv]
      · rw [ha]
        by_cases hlt : dw < du
        · rw [if_pos (by simpa [ltInf] using hlt)]
          right
          refine ⟨w, dw, rfl,
            List.mem_append.mpr (Or.inr (List.mem_singleton.mpr rfl)), hw, ?_⟩
          intro v hv dv hdv
          rcases List.mem_append.mp hv with hv1 | hv2
          · exact le_trans (le_of_lt hlt) (hmin v hv1 dv hdv)
          · rw [List.mem_singleton.mp hv2] at hdv
            rw [hw] at hdv
            rw [← Option.some.inj hdv]
        · rw [if_neg (by simpa [ltInf] using hlt)]
          right
          refine ⟨u, du, rfl, List.mem_append.mpr (Or.inl hu), hdu, ?_⟩
          intro v hv dv hdv
          rcases List.mem_append.mp hv with hv1 | hv2
          · exact hmin v hv1 dv hdv
          · rw [List.mem_singleton.mp hv2] at hdv
            rw [hw] at hdv
            rw [← Option.some.inj hdv]
            exact le_of_not_lt hlt

theorem extractMin_mem (dist : List (String × ℚ)) (pq : List String) (u : String)
    (h : extractMin dist pq = some u) :
    u ∈ pq ∧ ∃ du, alFind dist u = some du
      ∧ ∀ v ∈ pq, ∀ dv, alFind dist v = some dv → du ≤ dv := by
  have hspec := extractMinGo_spec dist pq (Option.none, Option.none) []
    (Or.inl ⟨rfl, by simp⟩)
  unfold extractMin at h
  rcases hspec with ⟨ha, _⟩ | ⟨w, dw, ha, hw, hdw, hmin⟩
  · rw [ha] at h
    cases h
  · rw [ha] at h
    rw [← Option.some.inj h]
    simp only [List.nil_append] at hw hmin
    exact ⟨hw, dw, hdw, hmin⟩

theorem extractMin_isSome (dist : List (String × ℚ)) (pq : List String)
    (hne : pq ≠ []) (hall : ∀ v ∈ pq, (alFind dist v).isSome) :
    (extractMin dist pq).isSome := by
  have hspec := extractMinGo_spec dist pq (Option.none, Option.none) []
    (Or.inl ⟨rfl, by simp⟩)
  unfold extractMin
  rcases hspec with ⟨ha, hnone⟩ | ⟨w, dw, ha, hw, hdw, hmin⟩
  · cases pq with
    | nil => exact absurd rfl hne
    | cons a l =>
      have := hall a (List.mem_cons_self a l)
      rw [hnone a (by simp)] at this
      cases this
  · rw [ha]
    rfl


theorem ltInf_some_false {a : ℚ} {o : Option ℚ} (h : ltInf (some a) o = false) :
    ∃ x, o = some x ∧ ¬ a < x := by
  cases o with
  | none => cases h
  | some x =>
    refine ⟨x, rfl, ?_⟩
    simpa [ltInf] using h

theorem ltInf_some_true {a : ℚ} {o : Option ℚ} (h : ltInf (some a) o = true) :
    ∀ x, o = some x → a < x := by
  intro x hx
  subst hx
  simpa [ltInf] using h

theorem relaxStep_spec (g : WGraph) (bound : List String) (P : Finset String)
    (u : String) (du : ℚ) (e : WEdge) (hw : 0 ≤ e.w) (hb : e.dst ∈ bound)
    (st : DState) (hinv : RelaxInv g bound P u du st) :
    RelaxInv g bound P u du
      (match alFind st.dist u with
        | Option.none => st
        | some du' =>
          if ltInf (some (du' + e.w)) (alFind st.dist e.dst) then
            DState.mk (alSet st.dist e.dst (du' + e.w))
              (alSet st.prev e.dst u) (setAdd st.pq e.dst)
          else st)
    ∧ (alFind (match alFind st.dist u with
        | Option.none => st
        | some du' =>
          if ltInf (some (du' + e.w)) (alFind st.dist e.dst) then
            DState.mk (alSet st.dist e.dst (du' + e.w))
              (alSet st.prev e.dst u) (setAdd st.pq e.dst)
          else st).dist e.dst).isSome
    ∧ (∀ v, (alFind st.dist v).isSome →
        (alFind (match alFind st.dist u with
          | Option.none => st
          | some du' =>
            if ltInf (some (du' + e.w)) (alFind st.dist e.dst) then
              DState.mk (alSet st.dist e.dst (du' + e.w))
                (alSet st.prev e.dst u) (setAdd st.pq e.dst)
            else st).dist v).isSome) := by
  obtain ⟨q1, q2, q12, q3, q4, q5, q6, q7, q8, q9⟩ := hinv
  have hstep : (match alFind st.dist u with
      | Option.none => st
      | some du' =>
        if ltInf (some (du' + e.w)) (alFind st.dist e.dst) then
          DState.mk (alSet st.dist e.dst (du' + e.w))
            (alSet st.prev e.dst u) (setAdd st.pq e.dst)
        else st)
      = if ltInf (some (du + e.w)) (alFind st.dist e.dst) then
          DState.mk (alSet st.dist e.dst (du + e.w))
            (alSet st.prev e.dst u) (setAdd st.pq e.dst)
        else st := by
    rw [q1]
  rw [hstep]
  by_cases hlt : ltInf (some (du + e.w)) (alFind st.dist e.dst) = true
  · rw [if_pos hlt]
    have hdu0 : 0 ≤ du := q7 u du q1
    have hdule : du ≤ du + e.w := by linarith
    have hedu : e.dst ≠ u := by
      intro hh
      have h2 : alFind st.dist e.dst = some du := by rw [hh]; exact q1
      have := ltInf_some_true hlt du h2
      linarith
    have hedP : e.dst ∉ P := by
      intro hh
      obtain ⟨d, hd, hdle⟩ := q4 e.dst hh
      have := ltInf_some_true hlt d hd
      linarith
    refine ⟨⟨?_, ?_, ?_, ?_, ?_, ?_, ?_, ?_, ?_, ?_⟩, ?_, ?_⟩
    · rw [alFind_alSet, if_neg (fun hh => hedu hh.symm)]
      exact q1
    · unfold setAdd
      by_cases hm : st.pq.contains e.dst
      · rw [if_pos hm]; exact q2
      · rw [if_neg hm]
        refine List.Nodup.append q2 (List.nodup_singleton _) ?_
        intro z hz hz2
        rw [List.mem_singleton.mp hz2] at hz
        exact hm ((contains_iff_mem _ _).mpr hz)
    · rw [mem_setAdd]
      rintro (hh | hh)
      · exact q12 hh
      · exact hedu hh.symm
    · intro v hv
      rw [mem_setAdd] at hv
      rcases hv with hv | rfl
      · obtain ⟨d, hd, hdle⟩ := q3 v hv
        by_cases hve : v = e.dst
        · rw [alFind_alSet, if_pos hve]
          exact ⟨du + e.w, rfl, hdule⟩
        · rw [alFind_alSet, if_neg hve]
          exact ⟨d, hd, hdle⟩
      · rw [alFind_alSet, if_pos rfl]
        exact ⟨du + e.w, rfl, hdule⟩
    · intro v hv
      obtain ⟨d, hd, hdle⟩ := q4 v hv
      have hve : ¬ (v = e.dst) := fun hh => hedP (hh ▸ hv)
      rw [alFind_alSet, if_neg hve]
      exact ⟨d, hd, hdle⟩
    · intro v hv
      rw [mem_setAdd]
      rintro (hh | rfl)
      · exact q5 v hv hh
      · exact hedP hv
    · intro v hv
      rw [alFind_alSet] at hv
      by_cases hve : v = e.dst
      · subst hve
        exact hb
      · rw [if_neg hve] at hv
        exact q6 v hv
    · intro v d hd
      rw [alFind_alSet] at hd
      by_cases hve : v = e.dst
      · rw [if_pos hve] at hd
        rw [← Option.some.inj hd]
        linarith
      · rw [if_neg hve] at hd
        exact q7 v d hd
    · intro v hv hvq
      rw [mem_setAdd] at hvq
      push_neg at hvq
      rw [alFind_alSet] at hv
      by_cases hve : v = e.dst
      · exact absurd hve hvq.2
      · rw [if_neg hve] at hv
        exact q8 v hv hvq.1
    · intro v hv e2 he2
      rw [alFind_alSet]
      by_cases hve : e2.dst = e.dst
      · rw [if_pos hve]
        rfl
      · rw [if_neg hve]
        exact q9 v hv e2 he2
    · rw [alFind_alSet, if_pos rfl]
      rfl
    · intro v hv
      rw [alFind_alSet]
      by_cases hve : v = e.dst
      · rw [if_pos hve]; rfl
      · rw [if_neg hve]; exact hv
  · rw [if_neg hlt]
    rw [Bool.not_eq_true] at hlt
    obtain ⟨x, hx, _⟩ := ltInf_some_false hlt
    exact ⟨⟨q1, q2, q12, q3, q4, q5, q6, q7, q8, q9⟩, by rw [hx]; rfl, fun v hv => hv⟩

/-- Invariant preservation and post-conditions of the fold underlying
`relaxAll`, for an arbitrary edge list. -/
theorem relaxFold_spec (g : WGraph) (bound : List String) (P : Finset String)
    (u : String) (du : ℚ) :
    ∀ (ns : List WEdge), (∀ e ∈ ns, 0 ≤ e.w) → (∀ e ∈ ns, e.dst ∈ bound) →
    ∀ st : DState, RelaxInv g bound P u du st →
      RelaxInv g bound P u du
        (ns.foldl (fun st e =>
          match alFind st.dist u with
          | Option.none => st
          | some du' =>
            if ltInf (some (du' + e.w)) (alFind st.dist e.dst) then
              DState.mk (alSet st.dist e.dst (du' + e.w))
                (alSet st.prev e.dst u) (setAdd st.pq e.dst)
            else st) st)
      ∧ (∀ e ∈ ns, (alFind (ns.foldl (fun st e =>
          match alFind st.dist u with
          | Option.none => st
          | some du' =>
            if ltInf (some (du' + e.w)) (alFind st.dist e.dst) then
              DState.mk (alSet st.dist e.dst (du' + e.w))
                (alSet st.prev e.dst u) (setAdd st.pq e.dst)
            else st) st).dist e.dst).isSome)
      ∧ (∀ v, (alFind st.dist v).isSome → (alFind (ns.foldl (fun st e =>
          match alFind st.dist u with
          | Option.none => st
          | some du' =>
            if ltInf (some (du' + e.w)) (alFind st.dist e.dst) then
              DState.mk (alSet st.dist e.dst (du' + e.w))
                (alSet st.prev e.dst u) (setAdd st.pq e.dst)
            else st) st).dist v).isSome) := by
  intro ns
  induction ns with
  | nil =>
    intro _ _ st hinv
    exact ⟨hinv, by simp, fun v hv => hv⟩
  | cons e ns ih =>
    intro hw hb st hinv
    have hstep := relaxStep_spec g bound P u du e (hw e (List.mem_cons_self e ns))
      (hb e (List.mem_cons_self e ns)) st hinv
    obtain ⟨hinv1, hsome1, hmono1⟩ := hstep
    have hrest := ih (fun e2 he2 => hw e2 (List.mem_cons_of_mem _ he2))
      (fun e2 he2 => hb e2 (List.mem_cons_of_mem _ he2)) _ hinv1
    obtain ⟨hinv2, hsome2, hmono2⟩ := hrest
    rw [List.foldl_cons]
    refine ⟨hinv2, ?_, fun v hv => hmono2 v (hmono1 v hv)⟩
    intro e2 he2
    rcases List.mem_cons.mp he2 with rfl | he2
    · exact hmono2 e2.dst hsome1
    · exact hsome2 e2 he2

/-- `relaxAll` preserves the relaxation invariant, gives every neighbour
of the popped node a tentative distance, and never deletes entries. -/
theorem relaxAll_spec (g : WGraph) (bound : List String) (P : Finset String)
    (u : String) (du : ℚ)
    (hw : ∀ e ∈ nbrsW g u, 0 ≤ e.w) (hb : ∀ e ∈ nbrsW g u, e.dst ∈ bound)
    (st : DState) (hinv : RelaxInv g bound P u du st) :
    RelaxInv g bound P u du (relaxAll g u st)
    ∧ (∀ e ∈ nbrsW g u, (alFind (relaxAll g u st).dist e.dst).isSome)
    ∧ (∀ v, (alFind st.dist v).isSome →
        (alFind (relaxAll g u st).dist v).isSome) :=
  relaxFold_spec g bound P u du (nbrsW g u) hw hb st hinv

/-- Popping the minimum of the queue turns the loop invariant into the
relaxation invariant for the popped node. -/
theorem pop_relaxInv (g : WGraph) (bound : List String) (P : Finset String)
    (last : ℚ) (st : DState) (hinv : DijInv g bound P last st)
    (u : String) (hu : extractMin st.dist st.pq = some u) :
    ∃ du, alFind st.dist u = some du ∧ last ≤ du ∧ u ∈ st.pq ∧ u ∉ P
      ∧ RelaxInv g bound P u du
          (DState.mk st.dist st.prev (st.pq.erase u)) := by
  obtain ⟨q1, q2, q3, q4, q5, q6, q7, q8⟩ := hinv
  obtain ⟨hupq, du, hdu, hmin⟩ := extractMin_mem st.dist st.pq u hu
  obtain ⟨d0, hd0, hlast⟩ := q2 u hupq
  rw [hdu] at hd0
  have hlastdu : last ≤ du := by
    rw [Option.some.inj hd0]
    exact hlast
  have huP : u ∉ P := fun hh => q4 u hh hupq
  refine ⟨du, hdu, hlastdu, hupq, huP, hdu, q1.erase u, q1.not_mem_erase,
    ?_, ?_, ?_, q5, q6, ?_, q8⟩
  · intro v hv
    have hvpq : v ∈ st.pq := List.mem_of_mem_erase hv
    obtain ⟨d, hd, _⟩ := q2 v hvpq
    exact ⟨d, hd, hmin v hvpq d hd⟩
  · intro v hv
    obtain ⟨d, hd, hdle⟩ := q3 v hv
    exact ⟨d, hd, le_trans hdle hlastdu⟩
  · intro v hv
    exact fun hh => q4 v hv (List.mem_of_mem_erase hh)
  · intro v hvdom hv
    by_cases hvpq : v ∈ st.pq
    · right
      by_contra hne
      exact hv ((List.Nodup.mem_erase_iff q1).mpr ⟨hne, hvpq⟩)
    · exact Or.inl (q7 v hvdom hvpq)

/-- After relaxing all edges of the popped node the loop invariant holds
again with the popped node settled. -/
theorem relax_dijInv (g : WGraph) (bound : List String) (P : Finset String)
    (u : String) (du : ℚ) (st : DState)
    (hinv : RelaxInv g bound P u du st)
    (hclosed : ∀ e ∈ nbrsW g u, (alFind st.dist e.dst).isSome) :
    DijInv g bound (insert u P) du st := by
  obtain ⟨q1, q2, q12, q3, q4, q5, q6, q7, q8, q9⟩ := hinv
  refine ⟨q2, q3, ?_, ?_, q6, q7, ?_, ?_⟩
  · intro v hv
    rcases Finset.mem_insert.mp hv with rfl | hv
    · exact ⟨du, q1, le_refl du⟩
    · exact q4 v hv
  · intro v hv
    rcases Finset.mem_insert.mp hv with rfl | hv
    · exact q12
    · exact q5 v hv
  · intro v hvdom hv
    rcases q8 v hvdom hv with hP | rfl
    · exact Finset.mem_insert_of_mem hP
    · exact Finset.mem_insert_self v P
  · intro v hv e he
    rcases Finset.mem_insert.mp hv with rfl | hv
    · exact hclosed e he
    · exact q9 v hv e he

/-- Main loop lemma: with enough fuel the Dijkstra loop ends either with
an empty queue (and the invariant intact) or with the goal holding a
tentative distance; all distances stay non-negative and no entry is ever
dropped. -/
theorem dijLoop_spec (g : WGraph) (goal : String) (bound : List String)
    (hwts : ∀ v, ∀ e ∈ nbrsW g v, 0 ≤ e.w)
    (hbd : ∀ v, ∀ e ∈ nbrsW g v, e.dst ∈ bound) :
    ∀ (fuel : Nat) (P : Finset String) (last : ℚ) (st : DState),
      DijInv g bound P last st →
      (bound.toFinset \ P).card < fuel →
      ((∃ P' last', DijInv g bound P' last' (dijLoop g goal fuel st)
          ∧ (dijLoop g goal fuel st).pq = [])
        ∨ (alFind (dijLoop g goal fuel st).dist goal).isSome)
      ∧ (∀ v d, alFind (dijLoop g goal fuel st).dist v = some d → 0 ≤ d)
      ∧ (∀ v, (alFind st.dist v).isSome →
          (alFind (dijLoop g goal fuel st).dist v).isSome) := by
  intro fuel
  induction fuel with
  | zero =>
    intro P last st _ hcard
    exact absurd hcard (Nat.not_lt_zero _)
  | succ fuel ih =>
    intro P last st hinv hcard
    by_cases hpq : st.pq.isEmpty
    · have hres : dijLoop g goal (fuel + 1) st = st := by
        simp only [dijLoop, hpq, if_true]
      rw [hres]
      exact ⟨Or.inl ⟨P, last, hinv, List.isEmpty_iff.mp hpq⟩,
        hinv.2.2.2.2.2.1, fun v hv => hv⟩
    · have hne : st.pq ≠ [] := by
        intro hh
        rw [hh] at hpq
        exact hpq rfl
      have hall : ∀ v ∈ st.pq, (alFind st.dist v).isSome := by
        intro v hv
        obtain ⟨d, hd, _⟩ := hinv.2.1 v hv
        rw [hd]
        rfl
      have hsome := extractMin_isSome st.dist st.pq hne hall
      obtain ⟨u, hu⟩ := Option.isSome_iff_exists.mp hsome
      obtain ⟨du, hdu, hlastdu, hupq, huP, hrinv⟩ :=
        pop_relaxInv g bound P last st hinv u hu
      have hubound : u ∈ bound := hinv.2.2.2.2.1 u (by rw [hdu]; rfl)
      by_cases hgoal : (u == goal) = true
      · have hug : u = goal := by
          rwa [beq_iff_eq] at hgoal
        have hres : dijLoop g goal (fuel + 1) st
            = DState.mk st.dist st.prev (st.pq.erase u) := by
          simp only [dijLoop, hpq, if_false, hu]
          rw [if_pos hgoal]
          rfl
        rw [hres]
        refine ⟨Or.inr ?_, hinv.2.2.2.2.2.1, fun v hv => hv⟩
        rw [← hug, hdu]
        rfl
      · have hres : dijLoop g goal (fuel + 1) st
            = dijLoop g goal fuel
                (relaxAll g u (DState.mk st.dist st.prev (st.pq.erase u))) := by
          simp only [dijLoop, hpq, if_false, hu]
          rw [if_neg hgoal]
          rfl
        obtain ⟨hrinv2, hclosed, hmono1⟩ := relaxAll_spec g bound P u du
          (hwts u) (hbd u) _ hrinv
        have hinv2 := relax_dijInv g bound P u du _ hrinv2 hclosed
        have hsub : bound.toFinset \ insert u P ⊆ bound.toFinset \ P :=
          Finset.sdiff_subset_sdiff (Finset.Subset.refl _)
            (Finset.subset_insert u P)
        have humem : u ∈ bound.toFinset \ P :=
          Finset.mem_sdiff.mpr ⟨List.mem_toFinset.mpr hubound, huP⟩
        have hunot : u ∉ bound.toFinset \ insert u P := fun hh =>
          (Finset.mem_sdiff.mp hh).2 (Finset.mem_insert_self u P)
        have hcardlt : (bound.toFinset \ insert u P).card
            < (bound.toFinset \ P).card :=
          Finset.card_lt_card
            ((Finset.ssubset_iff_of_subset hsub).mpr ⟨u, humem, hunot⟩)
        rw [hres]
        obtain ⟨hdisj, hnn, hmono2⟩ :=
          ih (insert u P) du _ hinv2 (by omega)
        exact ⟨hdisj, hnn, fun v hv => hmono2 v (hmono1 v hv)⟩

theorem foldl_preserves_mem {α β : Type} (P : β → Prop) (f : β → α → β) :
    ∀ (l : List α), (∀ st x, x ∈ l → P st → P (f st x)) →
      ∀ init, P init → P (l.foldl f init) := by
  intro l
  induction l with
  | nil => intro _ init hi; exact hi
  | cons a l ih =>
    intro h init hi
    exact ih (fun st x hx => h st x (List.mem_cons_of_mem _ hx)) (f init a)
      (h init a (List.mem_cons_self a l) hi)

/-- Every tentative distance the relaxation can create belongs to a node
reachable from `start`. -/
theorem relaxAll_reach (g : WGraph) (start u : String) (st : DState)
    (hst : ∀ v, (alFind st.dist v).isSome → ReachW g start v) :
    ∀ v, (alFind (relaxAll g u st).dist v).isSome → ReachW g start v := by
  unfold relaxAll
  refine foldl_preserves_mem
    (fun st => ∀ v, (alFind st.dist v).isSome → ReachW g start v) _
    (nbrsW g u) ?_ st hst
  intro s e he hs v
  rcases Option.eq_none_or_eq_some (alFind s.dist u) with hdu | ⟨du, hdu⟩
  case inl =>
    have hred0 : (match alFind s.dist u with
        | Option.none => s
        | some du' =>
          if ltInf (some (du' + e.w)) (alFind s.dist e.dst) then
            DState.mk (alSet s.dist e.dst (du' + e.w))
              (alSet s.prev e.dst u) (setAdd s.pq e.dst)
          else s) = s := by
      rw [hdu]
    rw [hred0]
    exact hs v
  case inr =>
    have hred0 : (match alFind s.dist u with
        | Option.none => s
        | some du' =>
          if ltInf (some (du' + e.w)) (alFind s.dist e.dst) then
            DState.mk (alSet s.dist e.dst (du' + e.w))
              (alSet s.prev e.dst u) (setAdd s.pq e.dst)
          else s)
        = if ltInf (some (du + e.w)) (alFind s.dist e.dst) then
            DState.mk (alSet s.dist e.dst (du + e.w))
              (alSet s.prev e.dst u) (setAdd s.pq e.dst)
          else s := by
      rw [hdu]
    rw [hred0]
    by_cases hlt : ltInf (some (du + e.w)) (alFind s.dist e.dst) = true
    · rw [if_pos hlt]
      intro hv
      rw [alFind_alSet] at hv
      by_cases hve : v = e.dst
      · subst hve
        have hru : ReachW g start u := hs u (by rw [hdu]; rfl)
        exact Relation.ReflTransGen.tail hru ⟨e, he, rfl⟩
      · rw [if_neg hve] at hv
        exact hs v hv
    · rw [if_neg hlt]
      exact hs v

/-- The loop never invents distances for unreachable nodes, whatever the
fuel. -/
theorem dijLoop_reach (g : WGraph) (goal start : String) :
    ∀ (fuel : Nat) (st : DState),
      (∀ v, (alFind st.dist v).isSome → ReachW g start v) →
      ∀ v, (alFind (dijLoop g goal fuel st).dist v).isSome →
        ReachW g start v := by
  intro fuel
  induction fuel with
  | zero => intro st hst; exact hst
  | succ fuel ih =>
    intro st hst
    by_cases hpq : st.pq.isEmpty
    · simpa [dijLoop, hpq] using hst
    · cases hu : extractMin st.dist st.pq with
      | none =>
        have hres : dijLoop g goal (fuel + 1) st = dijLoop g goal fuel st := by
          simp only [dijLoop, hpq, if_false, hu]
          rfl
        rw [hres]
        exact ih st hst
      | some u =>
        by_cases hgoal : (u == goal) = true
        · have hres : dijLoop g goal (fuel + 1) st
              = DState.mk st.dist st.prev (st.pq.erase u) := by
            simp only [dijLoop, hpq, if_false, hu]
            rw [if_pos hgoal]
            rfl
          rw [hres]
          exact hst
        · have hres : dijLoop g goal (fuel + 1) st
              = dijLoop g goal fuel
                  (relaxAll g u (DState.mk st.dist st.prev (st.pq.erase u))) := by
            simp only [dijLoop, hpq, if_false, hu]
            rw [if_neg hgoal]
            rfl
          rw [hres]
          exact ih _ (relaxAll_reach g start u _ hst)

/-- With an empty queue the settled set is closed under edges, so every
node reachable from a node with a distance has a distance. -/
theorem dijInv_complete (g : WGraph) (bound : List String) (P : Finset String)
    (last : ℚ) (st : DState) (hinv : DijInv g bound P last st)
    (hpq : st.pq = []) (start : String)
    (hstart : (alFind st.dist start).isSome) :
    ∀ v, ReachW g start v → (alFind st.dist v).isSome := by
  intro v hv
  induction hv with
  | refl => exact hstart
  | tail hab hbc ih =>
    obtain ⟨e, he, hdst⟩ := hbc
    have hbP := hinv.2.2.2.2.2.2.1 _ ih (by rw [hpq]; exact List.not_mem_nil _)
    have := hinv.2.2.2.2.2.2.2 _ hbP e he
    rw [hdst] at this
    exact this

theorem alFind_singleton {α : Type} (k v : String) (x : α) :
    alFind [(k, x)] v = if v = k then some x else Option.none := by
  unfold alFind
  by_cases h : v = k
  · subst h
    simp [List.find?]
  · have hkv : (k == v) = false := by
      simp [beq_iff_eq]
      exact fun hh => h hh.symm
    simp [List.find?, hkv]
    rw [if_neg h]

/-- The invariant holds at the loop entry state of `dijkstraWeighted`. -/
theorem dijInv_init (g : WGraph) (start : String) (bound : List String)
    (hsb : start ∈ bound) :
    DijInv g bound ∅ 0 (DState.mk [(start, 0)] [] [start]) := by
  refine ⟨List.nodup_singleton _, ?_, ?_, ?_, ?_, ?_, ?_, ?_⟩
  · intro v hv
    rw [List.mem_singleton.mp hv]
    exact ⟨0, by rw [alFind_singleton, if_pos rfl], le_refl 0⟩
  · intro v hv; exact absurd hv (Finset.not_mem_empty v)
  · intro v hv; exact absurd hv (Finset.not_mem_empty v)
  · intro v hv
    rw [alFind_singleton] at hv
    by_cases h : v = start
    · rw [h]; exact hsb
    · rw [if_neg h] at hv; cases hv
  · intro v d hd
    rw [alFind_singleton] at hd
    by_cases h : v = start
    · rw [if_pos h] at hd
      rw [← Option.some.inj hd]
    · rw [if_neg h] at hd; cases hd
  · intro v hv hvpq
    rw [alFind_singleton] at hv
    by_cases h : v = start
    · exact absurd (h ▸ List.mem_singleton_self start) hvpq
    · rw [if_neg h] at hv; cases hv
  · intro v hv; exact absurd hv (Finset.not_mem_empty v)

theorem mem_foldr_append (g : WGraph) (p : String × List WEdge) (e : WEdge)
    (hp : p ∈ g) (he : e ∈ p.2) :
    e ∈ g.foldr (fun p acc => p.2 ++ acc) ([] : List WEdge) := by
  induction g with
  | nil => cases hp
  | cons q g ih =>
    rw [List.foldr_cons, List.mem_append]
    rcases List.mem_cons.mp hp with rfl | hp
    · exact Or.inl he
    · exact Or.inr (ih hp)

/-- Edge targets all lie in `wgNodes`. -/
theorem dst_mem_wgNodes (g : WGraph) (v : String) (e : WEdge)
    (he : e ∈ nbrsW g v) : e.dst ∈ wgNodes g := by
  unfold nbrsW at he
  cases hf : wgFind g v with
  | none => rw [hf] at he; cases he
  | some l =>
    rw [hf] at he
    unfold wgFind at hf
    obtain ⟨p, hp, hpl⟩ := Option.map_eq_some'.mp hf
    have hpg : p ∈ g := List.mem_of_find?_eq_some hp
    have hel : e ∈ p.2 := by rw [hpl]; exact he
    unfold wgNodes
    rw [List.mem_dedup, List.mem_append]
    exact Or.inr (List.mem_map.mpr ⟨e, mem_foldr_append g p e hpg hel, rfl⟩)

theorem pxDistance_nonneg (components : List Component) (a b : String)
    (q : ℚ) (h : pxDistanceBetweenTerminals components a b = some q) :
    0 ≤ q := by
  unfold pxDistanceBetweenTerminals at h
  cases h1 : terminalAbsPosById components a with
  | none => rw [h1] at h; cases h
  | some pa =>
    cases h2 : terminalAbsPosById components b with
    | none => rw [h1, h2] at h; cases h
    | some pb =>
      rw [h1, h2] at h
      rw [← Option.some.inj h]
      exact hypotQ_nonneg _ _

theorem wireDistM_nonneg (components : List Component) (w : Wire) :
    0 ≤ wireDistM components w := by
  unfold wireDistM
  have hgeom : 0 ≤ (pxDistanceBetweenTerminals components w.a w.b).getD 0
      / pxPerM := by
    apply div_nonneg
    · cases hp : pxDistanceBetweenTerminals components w.a w.b with
      | none => simp
      | some q =>
        simp only [Option.getD_some]
        exact pxDistance_nonneg components w.a w.b q hp
    · norm_num [pxPerM]
  cases w.lengthM with
  | none => exact hgeom
  | some l =>
    dsimp only
    by_cases hl : 0 < l
    · rw [if_pos hl]; exact le_of_lt hl
    · rw [if_neg hl]; exact hgeom

theorem rPerMFam_nonneg (key : String) : 0 ≤ rPerMFam key := by
  unfold rPerMFam
  split_ifs <;> norm_num

theorem getRPerM_nonneg (s r : ℚ) (h : getRPerM s = some r) : 0 ≤ r := by
  unfold getRPerM at h
  split_ifs at h
  all_goals try cases h
  all_goals norm_num

theorem wireRPerM_nonneg (w : Wire) (key : String) : 0 ≤ wireRPerM w key := by
  unfold wireRPerM
  cases w.sizeMm2 with
  | none => exact rPerMFam_nonneg key
  | some s =>
    dsimp only
    by_cases hs : s = 0
    · rw [if_pos hs]
    · rw [if_neg hs]
      cases hr : getRPerM s with
      | none => exact rPerMFam_nonneg key
      | some r => exact getRPerM_nonneg s r hr

theorem wireResistance_nonneg (components : List Component) (w : Wire)
    (key : String) : 0 ≤ wireResistance components w key := by
  unfold wireResistance
  have h1 := wireDistM_nonneg components w
  have h2 := wireRPerM_nonneg w key
  have h3 := mul_nonneg h1 h2
  have hc : (0 : ℚ) ≤ contactR := by norm_num [contactR]
  dsimp only
  split_ifs <;> linarith

theorem wgAdd_nonneg (g : WGraph) (a b : String) (w : ℚ)
    (hg : ∀ v, ∀ e ∈ nbrsW g v, 0 ≤ e.w) (hw : 0 ≤ w) :
    ∀ v, ∀ e ∈ nbrsW (wgAdd g a b w) v, 0 ≤ e.w := by
  intro v e he
  rcases (mem_nbrsW_wgAdd g a b w v e).mp he with he | ⟨_, rfl⟩ | ⟨_, rfl⟩
  · exact hg v e he
  · exact hw
  · exact hw

/-- Every edge weight produced by the weighted builder is non-negative:
wire resistances and the internal contact resistance are non-negative. -/
theorem buildWeightedSubgraph_nonneg (components : List Component)
    (wires : List Wire) (allowed : List String) (key : String) :
    ∀ v, ∀ e ∈ nbrsW (buildWeightedSubgraph components wires allowed key) v,
      0 ≤ e.w := by
  unfold buildWeightedSubgraph
  dsimp only
  have hc : (0 : ℚ) ≤ contactR := by norm_num [contactR]
  apply foldl_preserves (fun g => ∀ v, ∀ e ∈ nbrsW g v, 0 ≤ e.w)
  · intro st c hst
    apply foldl_preserves (fun g => ∀ v, ∀ e ∈ nbrsW g v, 0 ≤ e.w)
    · intro st2 pr hst2
      repeat' split
      all_goals first
        | exact hst2
        | exact wgAdd_nonneg _ _ _ _ hst2 hc
    · exact hst
  · apply foldl_preserves (fun g => ∀ v, ∀ e ∈ nbrsW g v, 0 ≤ e.w)
    · intro st w hst
      repeat' split
      all_goals first
        | exact hst
        | exact wgAdd_nonneg _ _ _ _ hst (wireResistance_nonneg _ _ _)
    · intro v e he
      cases he

/-- C6: on any weighted graph with non-negative edge weights the
shortest-resistance solver returns `R = none` and `path = none` whenever
the start or the goal is absent from the graph or no path connects them,
and returns a finite non-negative resistance whenever both probe nodes
are present (with non-empty ids) and connected; moreover every graph the
weighted builder produces has only non-negative edge weights. -/
theorem dijkstraWeighted_spec_c6 (g : WGraph) (start goal : String)
    (hwts : ∀ v, ∀ e ∈ nbrsW g v, 0 ≤ e.w) :
    (((wgFind g start).isNone ∨ (wgFind g goal).isNone
        ∨ ¬ ReachW g start goal) →
      dijkstraWeighted g start goal
        = DijkstraResult.mk Option.none Option.none)
    ∧ (start ≠ "" → goal ≠ "" → (wgFind g start).isSome →
        (wgFind g goal).isSome → ReachW g start goal →
        ∃ r, (dijkstraWeighted g start goal).R = some r ∧ 0 ≤ r)
    ∧ (∀ (components : List Component) (wires : List Wire)
        (allowed : List String) (key : String) (v : String),
        ∀ e ∈ nbrsW (buildWeightedSubgraph components wires allowed key) v,
          0 ≤ e.w) := by
  refine ⟨?_, ?_, fun components wires allowed key =>
    buildWeightedSubgraph_nonneg components wires allowed key⟩
  · intro habs
    by_cases hguard : (start == "" || goal == ""
        || (wgFind g start).isNone || (wgFind g goal).isNone) = true
    · unfold dijkstraWeighted
      rw [if_pos hguard]
    · have hb : (start == "" || goal == ""
          || (wgFind g start).isNone || (wgFind g goal).isNone) = false :=
        Bool.eq_false_iff.mpr hguard
      simp only [Bool.or_eq_false_iff] at hb
      obtain ⟨⟨⟨h1, h2⟩, h3⟩, h4⟩ := hb
      rcases habs with h | h | hnr
      · rw [h3] at h; cases h
      · rw [h4] at h; cases h
      · have hreach0 : ∀ v,
            (alFind (DState.mk [(start, 0)] [] [start]).dist v).isSome →
              ReachW g start v := by
          intro v hv
          rw [show (DState.mk [(start, 0)] [] [start]).dist
            = [(start, (0 : ℚ))] from rfl, alFind_singleton] at hv
          by_cases hvs : v = start
          · rw [hvs]
            exact Relation.ReflTransGen.refl
          · rw [if_neg hvs] at hv
            cases hv
        have hnone : alFind (dijLoop g goal ((start :: wgNodes g).length + 1)
            (DState.mk [(start, 0)] [] [start])).dist goal = Option.none := by
          cases hgo : alFind (dijLoop g goal ((start :: wgNodes g).length + 1)
              (DState.mk [(start, 0)] [] [start])).dist goal with
          | none => rfl
          | some d =>
            exact absurd (dijLoop_reach g goal start _ _ hreach0 goal
              (by rw [hgo]; rfl)) hnr
        unfold dijkstraWeighted
        rw [if_neg (Bool.eq_false_iff.mp (by
          simp only [Bool.or_eq_false_iff]
          exact ⟨⟨⟨h1, h2⟩, h3⟩, h4⟩))]
        dsimp only
        rw [hnone]
  · intro hs hg hfs hfg hreach
    have h1 : (start == "") = false := beq_eq_false_iff_ne.mpr hs
    have h2 : (goal == "") = false := beq_eq_false_iff_ne.mpr hg
    have h3 : (wgFind g start).isNone = false := by
      obtain ⟨l, hl⟩ := Option.isSome_iff_exists.mp hfs
      rw [hl]
      rfl
    have h4 : (wgFind g goal).isNone = false := by
      obtain ⟨l, hl⟩ := Option.isSome_iff_exists.mp hfg
      rw [hl]
      rfl
    have hbd : ∀ v, ∀ e ∈ nbrsW g v, e.dst ∈ start :: wgNodes g :=
      fun v e he => List.mem_cons_of_mem _ (dst_mem_wgNodes g v e he)
    have hinv0 := dijInv_init g start (start :: wgNodes g)
      (List.mem_cons_self _ _)
    have hbudget : ((start :: wgNodes g).toFinset \ (∅ : Finset String)).card
        < (start :: wgNodes g).length + 1 := by
      rw [Finset.sdiff_empty]
      exact Nat.lt_succ_of_le (List.toFinset_card_le _)
    obtain ⟨hdisj, hnn, hmono⟩ := dijLoop_spec g goal (start :: wgNodes g)
      hwts hbd ((start :: wgNodes g).length + 1) ∅ 0
      (DState.mk [(start, 0)] [] [start]) hinv0 hbudget
    have hstart0 : (alFind (DState.mk [(start, 0)] [] [start]).dist
        start).isSome := by
      rw [show (DState.mk [(start, 0)] [] [start]).dist
        = [(start, (0 : ℚ))] from rfl, alFind_singleton, if_pos rfl]
      rfl
    have hgoalSome : (alFind (dijLoop g goal
        ((start :: wgNodes g).length + 1)
        (DState.mk [(start, 0)] [] [start])).dist goal).isSome := by
      rcases hdisj with ⟨P', last', hinv', hpq'⟩ | hsome
      · exact dijInv_complete g _ P' last' _ hinv' hpq' start
          (hmono start hstart0) goal hreach
      · exact hsome
    obtain ⟨d, hd⟩ := Option.isSome_iff_exists.mp hgoalSome
    refine ⟨d, ?_, hnn goal d hd⟩
    unfold dijkstraWeighted
    rw [if_neg (Bool.eq_false_iff.mp (by
      simp only [Bool.or_eq_false_iff]
      exact ⟨⟨⟨h1, h2⟩, h3⟩, h4⟩))]
    dsimp only
    rw [hd]

/-- Witness for C6 on the fixture graph `x –1– y –2– z`. -/
theorem c6_witness :
    ∃ r, (dijkstraWeighted fixWG "x" "z").R = some r ∧ 0 ≤ r := by
  have hwts : ∀ v, ∀ e ∈ nbrsW fixWG v, 0 ≤ e.w := by
    unfold fixWG
    exact wgAdd_nonneg _ _ _ _
      (wgAdd_nonneg _ _ _ _ (fun v e he => by cases he) (by norm_num))
      (by norm_num)
  have he1 : WEdge.mk "y" (1 : ℚ) ∈ nbrsW fixWG "x" := by
    unfold fixWG
    rw [mem_nbrsW_wgAdd]
    left
    rw [mem_nbrsW_wgAdd]
    right
    left
    exact ⟨rfl, rfl⟩
  have he2 : WEdge.mk "z" (2 : ℚ) ∈ nbrsW fixWG "y" := by
    unfold fixWG
    rw [mem_nbrsW_wgAdd]
    right
    left
    exact ⟨rfl, rfl⟩
  have hreach : ReachW fixWG "x" "z" :=
    Relation.ReflTransGen.tail
      (Relation.ReflTransGen.single ⟨_, he1, rfl⟩) ⟨_, he2, rfl⟩
  exact (dijkstraWeighted_spec_c6 fixWG "x" "z" hwts).2.1
    (by decide) (by decide) (by rfl) (by rfl) hreach

end WireLab

namespace WireLab

theorem mem_dstsW (g : WGraph) (x d : String) :
    d ∈ dstsW g x ↔ ∃ e ∈ nbrsW g x, e.dst = d := by
  simp [dstsW]

theorem RAv_nil_iff (g : WGraph) (a b : String) :
    RAv g [] a b ↔ ReachW g a b := by
  constructor
  · intro h
    refine Relation.ReflTransGen.mono ?_ h
    intro x y hxy
    exact (mem_dstsW g x y).mp hxy.1
  · intro h
    refine Relation.ReflTransGen.mono ?_ h
    intro x y hxy
    exact ⟨(mem_dstsW g x y).mpr hxy, List.not_mem_nil y⟩

theorem RAv_mono (g : WGraph) (A1 A2 : List String)
    (hsub : ∀ x, x ∈ A2 → x ∈ A1) (a b : String) (h : RAv g A1 a b) :
    RAv g A2 a b := by
  refine Relation.ReflTransGen.mono ?_ h
  intro x y hxy
  exact ⟨hxy.1, fun hy => hxy.2 (hsub y hy)⟩

theorem RAv_head (g : WGraph) (A : List String) (a b c : String)
    (hab : b ∈ dstsW g a) (hb : b ∉ A) (h : RAv g A b c) : RAv g A a c :=
  Relation.ReflTransGen.trans (Relation.ReflTransGen.single ⟨hab, hb⟩) h

theorem setAdd_nodup (W : List String) (x : String) (h : W.Nodup) :
    (setAdd W x).Nodup := by
  unfold setAdd
  by_cases hc : W.contains x
  · rw [if_pos hc]
    exact h
  · rw [if_neg hc]
    refine List.Nodup.append h (List.nodup_singleton _) ?_
    intro z hz hz2
    rw [List.mem_singleton.mp hz2] at hz
    exact hc ((contains_iff_mem _ _).mpr hz)

end WireLab

namespace WireLab

theorem sdiff_decomp (A B C : Finset String) (h1 : C ⊆ B) (h2 : B ⊆ A) :
    A \ C = (B \ C) ∪ (A \ B) ∧ Disjoint (B \ C) (A \ B) := by
  constructor
  · ext x
    simp only [Finset.mem_sdiff, Finset.mem_union]
    constructor
    · intro ⟨hA, hC⟩
      by_cases hB : x ∈ B
      · exact Or.inl ⟨hB, hC⟩
      · exact Or.inr ⟨hA, hB⟩
    · rintro (⟨hB, hC⟩ | ⟨hA, hB⟩)
      · exact ⟨h2 hB, hC⟩
      · exact ⟨hA, fun hx => hB (h1 hx)⟩
  · rw [Finset.disjoint_left]
    intro x hx hy
    exact (Finset.mem_sdiff.mp hy).2 (Finset.mem_sdiff.mp hx).1

/-- Input/output specification of a whole DFS call of `hasCycleThrough`:
the visited list grows by a region `Δ` of fresh nodes reachable from `v`,
the region is fully explored, and the cycle flag is set exactly when the
flag was already set or the region's cycle excess is positive. -/
def DfsCallSpec (g : WGraph) (bound : Finset String) (fuel : ℕ) : Prop :=
  ∀ (v : String) (p : Option String) (W : List String) (c : Bool),
    v ∉ W → W.Nodup → (∀ pv, p = some pv → pv ∈ W) → v ∈ bound →
    (bound \ W.toFinset).card < fuel →
    ∃ Δ : Finset String,
      (∀ x, x ∈ (dfsAux g fuel v p W c).1 ↔ (x ∈ W ∨ x = v ∨ x ∈ Δ))
      ∧ (dfsAux g fuel v p W c).1.Nodup
      ∧ v ∉ Δ ∧ (∀ x ∈ Δ, x ∉ W) ∧ (∀ x ∈ Δ, x ∈ bound)
      ∧ (∀ x ∈ Δ, ∀ d ∈ dstsW g x, d ∈ (dfsAux g fuel v p W c).1)
      ∧ (∀ d ∈ dstsW g v, some d = p ∨ d ∈ (dfsAux g fuel v p W c).1)
      ∧ (∀ x ∈ Δ, RAv g W v x)
      ∧ 0 ≤ excZ g v p Δ
      ∧ ((dfsAux g fuel v p W c).2 = true ↔ (c = true ∨ 1 ≤ excZ g v p Δ))

theorem dfs_scan_spec (g : WGraph) (bound : Finset String)
    (hsym : MSymW g) (hgb : ∀ x, ∀ d ∈ dstsW g x, d ∈ bound)
    (fuel : ℕ) (IH : DfsCallSpec g bound fuel)
    (v : String) (p : Option String) (Vb : List String) :
    ∀ (rest : List WEdge) (Wc : List String) (c₀ : Bool) (H : Finset String),
      (∀ e ∈ rest, e.dst ∈ dstsW g v) →
      v ∈ Wc → Wc.Nodup → (∀ x ∈ Vb, x ∈ Wc) →
      (∀ pv, p = some pv → pv ∈ Wc) →
      (bound \ Wc.toFinset).card < fuel →
      (∀ h ∈ H, h ∈ Wc) → (∀ pv, p = some pv → pv ∉ H) →
      ∃ (D : Finset String) (nb : ℕ),
        (∀ x ∈ Wc, x ∈ (rest.foldl (fun st e =>
            if some e.dst == p then st
            else if st.1.contains e.dst then (st.1, true)
            else dfsAux g fuel e.dst (some v) st.1 st.2) (Wc, c₀)).1)
        ∧ (rest.foldl (fun st e =>
            if some e.dst == p then st
            else if st.1.contains e.dst then (st.1, true)
            else dfsAux g fuel e.dst (some v) st.1 st.2) (Wc, c₀)).1.Nodup
        ∧ (∀ x, x ∈ (rest.foldl (fun st e =>
            if some e.dst == p then st
            else if st.1.contains e.dst then (st.1, true)
            else dfsAux g fuel e.dst (some v) st.1 st.2) (Wc, c₀)).1 → x ∉ Wc →
            (x ∈ bound ∧ x ∉ Vb ∧ RAv g Vb v x
              ∧ ∀ d ∈ dstsW g x, d ∈ (rest.foldl (fun st e =>
                  if some e.dst == p then st
                  else if st.1.contains e.dst then (st.1, true)
                  else dfsAux g fuel e.dst (some v) st.1 st.2) (Wc, c₀)).1))
        ∧ (∀ e ∈ rest, some e.dst = p ∨ e.dst ∈ (rest.foldl (fun st e =>
            if some e.dst == p then st
            else if st.1.contains e.dst then (st.1, true)
            else dfsAux g fuel e.dst (some v) st.1 st.2) (Wc, c₀)).1)
        ∧ (∀ d ∈ D, d ∉ Wc)
        ∧ (∀ d ∈ D, d ∈ (rest.foldl (fun st e =>
            if some e.dst == p then st
            else if st.1.contains e.dst then (st.1, true)
            else dfsAux g fuel e.dst (some v) st.1 st.2) (Wc, c₀)).1)
        ∧ (∀ d ∈ D, d ∈ rest.map WEdge.dst)
        ∧ 0 ≤ scanCS g v ((rest.foldl (fun st e =>
            if some e.dst == p then st
            else if st.1.contains e.dst then (st.1, true)
            else dfsAux g fuel e.dst (some v) st.1 st.2) (Wc, c₀)).1.toFinset
              \ Wc.toFinset) D
        ∧ ((rest.foldl (fun st e =>
            if some e.dst == p then st
            else if st.1.contains e.dst then (st.1, true)
            else dfsAux g fuel e.dst (some v) st.1 st.2) (Wc, c₀)).2 = true ↔
            (c₀ = true ∨ 1 ≤ nb ∨ 1 ≤ scanCS g v ((rest.foldl (fun st e =>
              if some e.dst == p then st
              else if st.1.contains e.dst then (st.1, true)
              else dfsAux g fuel e.dst (some v) st.1 st.2) (Wc, c₀)).1.toFinset
                \ Wc.toFinset) D))
        ∧ ((∑ d ∈ D, (((rest.map WEdge.dst).count d : ℤ) - 1))
            + ∑ h ∈ H, ((rest.map WEdge.dst).count h : ℤ) ≤ (nb : ℤ))
        ∧ rest.length = cntIn p (rest.map WEdge.dst) + nb + D.card := by
  intro rest
  induction rest with
  | nil =>
    intro Wc c₀ H hrest hvW hnd hsub hp hbud hH hHp
    refine ⟨∅, 0, ?_, ?_, ?_, ?_, ?_, ?_, ?_, ?_, ?_, ?_, ?_⟩
    · intro x hx
      simpa using hx
    · simpa using hnd
    · intro x hx hx2
      exact absurd (by simpa using hx) hx2
    · intro e he
      cases he
    · intro d hd
      cases hd
    · intro d hd
      cases hd
    · intro d hd
      cases hd
    · simp [scanCS]
    · simp [scanCS]
    · simp
    · cases p with
      | none => simp [cntIn]
      | some pv => simp [cntIn]
  | cons e rest ih =>
    intro Wc c₀ H hrest hvW hnd hsub hp hbud hH hHp
    have hre : e.dst ∈ dstsW g v := hrest e (List.mem_cons_self e rest)
    have hrest' : ∀ e2 ∈ rest, e2.dst ∈ dstsW g v :=
      fun e2 he2 => hrest e2 (List.mem_cons_of_mem _ he2)
    by_cases hbeq : (some e.dst == p) = true
    · -- parent skip
      have hpe : p = some e.dst := (eq_of_beq hbeq).symm
      have hpvW : e.dst ∈ Wc := hp e.dst hpe
      have hpvH : e.dst ∉ H := hHp e.dst hpe
      have hfold : (e :: rest).foldl (fun st e =>
          if some e.dst == p then st
          else if st.1.contains e.dst then (st.1, true)
          else dfsAux g fuel e.dst (some v) st.1 st.2) (Wc, c₀)
          = rest.foldl (fun st e =>
          if some e.dst == p then st
          else if st.1.contains e.dst then (st.1, true)
          else dfsAux g fuel e.dst (some v) st.1 st.2) (Wc, c₀) := by
        rw [List.foldl_cons, if_pos hbeq]
      rw [hfold]
      obtain ⟨D, nb, s1, s2, s3, s4, s5, s6, s7, s8, s9, s10, s11⟩ :=
        ih Wc c₀ H hrest' hvW hnd hsub hp hbud hH hHp
      refine ⟨D, nb, s1, s2, s3, ?_, s5, s6, ?_, s8, s9, ?_, ?_⟩
      · intro e2 he2
        rcases List.mem_cons.mp he2 with rfl | he2
        · exact Or.inl hpe.symm
        · exact s4 e2 he2
      · intro d hd
        rw [List.map_cons]
        exact List.mem_cons_of_mem _ (s7 d hd)
      · rw [List.map_cons]
        have hcD : ∀ d ∈ D, (e.dst :: rest.map WEdge.dst).count d
            = (rest.map WEdge.dst).count d := by
          intro d hd
          rw [List.count_cons]
          have hne : ¬ (d = e.dst) := fun hh => (s5 d hd) (hh ▸ hpvW)
          simp [hne, Ne.symm hne]
        have hcH : ∀ h ∈ H, (e.dst :: rest.map WEdge.dst).count h
            = (rest.map WEdge.dst).count h := by
          intro h hh
          rw [List.count_cons]
          have hne : ¬ (h = e.dst) := fun h2 => hpvH (h2 ▸ hh)
          simp [hne, Ne.symm hne]
        have h1 : (∑ d ∈ D, (((e.dst :: rest.map WEdge.dst).count d : ℤ) - 1))
            = ∑ d ∈ D, (((rest.map WEdge.dst).count d : ℤ) - 1) :=
          Finset.sum_congr rfl fun d hd => by rw [hcD d hd]
        have h2 : (∑ h ∈ H, ((e.dst :: rest.map WEdge.dst).count h : ℤ))
            = ∑ h ∈ H, ((rest.map WEdge.dst).count h : ℤ) :=
          Finset.sum_congr rfl fun h hh => by rw [hcH h hh]
        rw [h1, h2]
        exact s10
      · rw [List.map_cons, List.length_cons]
        have hci : cntIn p (e.dst :: rest.map WEdge.dst)
            = cntIn p (rest.map WEdge.dst) + 1 := by
          rw [hpe]
          simp [cntIn, List.count_cons]
        rw [hci]
        omega
    · by_cases hctn : Wc.contains e.dst = true
      · -- already visited: flag
        have heW : e.dst ∈ Wc := (contains_iff_mem _ _).mp hctn
        have hfold : (e :: rest).foldl (fun st e =>
            if some e.dst == p then st
            else if st.1.contains e.dst then (st.1, true)
            else dfsAux g fuel e.dst (some v) st.1 st.2) (Wc, c₀)
            = rest.foldl (fun st e =>
            if some e.dst == p then st
            else if st.1.contains e.dst then (st.1, true)
            else dfsAux g fuel e.dst (some v) st.1 st.2) (Wc, true) := by
          rw [List.foldl_cons, if_neg hbeq]
          rw [if_pos hctn]
        rw [hfold]
        obtain ⟨D, nb, s1, s2, s3, s4, s5, s6, s7, s8, s9, s10, s11⟩ :=
          ih Wc true H hrest' hvW hnd hsub hp hbud hH hHp
        refine ⟨D, nb + 1, s1, s2, s3, ?_, s5, s6, ?_, s8, ?_, ?_, ?_⟩
        · intro e2 he2
          rcases List.mem_cons.mp he2 with rfl | he2
          · exact Or.inr (s1 e2.dst heW)
          · exact s4 e2 he2
        · intro d hd
          rw [List.map_cons]
          exact List.mem_cons_of_mem _ (s7 d hd)
        · constructor
          · intro _
            right
            left
            omega
          · intro _
            exact s9.mpr (Or.inl rfl)
        · rw [List.map_cons]
          have hcD : ∀ d ∈ D, ((e.dst :: rest.map WEdge.dst).count d : ℤ)
              = ((rest.map WEdge.dst).count d : ℤ) := by
            intro d hd
            rw [List.count_cons]
            have hne : ¬ (d = e.dst) := fun hh => (s5 d hd) (hh ▸ heW)
            simp [hne, Ne.symm hne]
          have hsumD : (∑ d ∈ D, (((e.dst :: rest.map WEdge.dst).count d : ℤ) - 1))
              = ∑ d ∈ D, (((rest.map WEdge.dst).count d : ℤ) - 1) :=
            Finset.sum_congr rfl fun d hd => by rw [hcD d hd]
          have hsumH : (∑ h ∈ H, ((e.dst :: rest.map WEdge.dst).count h : ℤ))
              ≤ (∑ h ∈ H, ((rest.map WEdge.dst).count h : ℤ)) + 1 := by
            have hterm : ∀ h ∈ H, ((e.dst :: rest.map WEdge.dst).count h : ℤ)
                = ((rest.map WEdge.dst).count h : ℤ)
                  + (if h = e.dst then 1 else 0) := by
              intro h hh
              rw [List.count_cons]
              by_cases hhe : h = e.dst
              · simp [hhe]
              · simp [hhe, Ne.symm hhe]
            rw [Finset.sum_congr rfl hterm, Finset.sum_add_distrib]
            have := Finset.sum_ite_eq' H e.dst (fun _ => (1 : ℤ))
            rw [this]
            by_cases hmem : e.dst ∈ H <;> simp [hmem]
          push_cast
          push_cast at s10
          linarith
        · rw [List.map_cons, List.length_cons]
          have hci : cntIn p (e.dst :: rest.map WEdge.dst)
              = cntIn p (rest.map WEdge.dst) := by
            cases p with
            | none => simp [cntIn]
            | some pv =>
              have hne : ¬ (pv = e.dst) := by
                intro hh
                exact hbeq (by rw [hh]; exact beq_self_eq_true _)
              simp [cntIn, List.count_cons, hne, Ne.symm hne]
          rw [hci]
          omega
      · -- discovery
        have heNW : e.dst ∉ Wc := fun hh => hctn ((contains_iff_mem _ _).mpr hh)
        have heB : e.dst ∈ bound := hgb v e.dst hre
        have hpne : ∀ pv, p = some pv → ¬ (pv = e.dst) := by
          intro pv hpv hh
          apply hbeq
          rw [hpv, hh]
          exact beq_self_eq_true _
        obtain ⟨Δc, t1, t2, t3, t4, t5, t6, t7, t8, t9, t10⟩ :=
          IH e.dst (some v) Wc c₀ heNW hnd
            (fun pv hpv => by rw [← Option.some.inj hpv]; exact hvW) heB hbud
        have hfold : (e :: rest).foldl (fun st e =>
            if some e.dst == p then st
            else if st.1.contains e.dst then (st.1, true)
            else dfsAux g fuel e.dst (some v) st.1 st.2) (Wc, c₀)
            = rest.foldl (fun st e =>
            if some e.dst == p then st
            else if st.1.contains e.dst then (st.1, true)
            else dfsAux g fuel e.dst (some v) st.1 st.2) ((dfsAux g fuel e.dst (some v) Wc c₀).1, (dfsAux g fuel e.dst (some v) Wc c₀).2) := by
          rw [List.foldl_cons, if_neg hbeq, if_neg hctn]
        rw [hfold]
        have hWc_ch : ∀ x ∈ Wc, x ∈ (dfsAux g fuel e.dst (some v) Wc c₀).1 :=
          fun x hx => (t1 x).mpr (Or.inl hx)
        have he_ch : e.dst ∈ (dfsAux g fuel e.dst (some v) Wc c₀).1 := (t1 e.dst).mpr (Or.inr (Or.inl rfl))
        have hv_ch : v ∈ (dfsAux g fuel e.dst (some v) Wc c₀).1 := hWc_ch v hvW
        have hsub01 : Wc.toFinset ⊆ (dfsAux g fuel e.dst (some v) Wc c₀).1.toFinset :=
          fun x hx => List.mem_toFinset.mpr (hWc_ch x (List.mem_toFinset.mp hx))
        have hbud' : (bound \ (dfsAux g fuel e.dst (some v) Wc c₀).1.toFinset).card < fuel :=
          lt_of_le_of_lt (Finset.card_le_card
            (Finset.sdiff_subset_sdiff (Finset.Subset.refl _) hsub01)) hbud
        have hH' : ∀ h ∈ insert e.dst H, h ∈ (dfsAux g fuel e.dst (some v) Wc c₀).1 := by
          intro h hh
          rcases Finset.mem_insert.mp hh with rfl | hh
          · exact he_ch
          · exact hWc_ch h (hH h hh)
        have hHp' : ∀ pv, p = some pv → pv ∉ insert e.dst H := by
          intro pv hpv hmem
          rcases Finset.mem_insert.mp hmem with hh | hh
          · exact hpne pv hpv hh
          · exact hHp pv hpv hh
        obtain ⟨D2, nb2, u1, u2, u3, u4, u5, u6, u7, u8, u9, u10, u11⟩ :=
          ih (dfsAux g fuel e.dst (some v) Wc c₀).1 (dfsAux g fuel e.dst (some v) Wc c₀).2 (insert e.dst H) hrest' hv_ch t2
            (fun x hx => hWc_ch x (hsub x hx))
            (fun pv hpv => hWc_ch _ (hp pv hpv)) hbud' hH' hHp'
        have heD2 : e.dst ∉ D2 := fun hh => u5 e.dst hh he_ch
        have heH : e.dst ∉ H := fun hh => heNW (hH _ hh)
        have hsub12 : (dfsAux g fuel e.dst (some v) Wc c₀).1.toFinset ⊆ (rest.foldl (fun st e =>
            if some e.dst == p then st
            else if st.1.contains e.dst then (st.1, true)
            else dfsAux g fuel e.dst (some v) st.1 st.2) ((dfsAux g fuel e.dst (some v) Wc c₀).1, (dfsAux g fuel e.dst (some v) Wc c₀).2)).1.toFinset :=
          fun x hx => List.mem_toFinset.mpr (u1 x (List.mem_toFinset.mp hx))
        obtain ⟨hdecomp, hdisj⟩ := sdiff_decomp ((rest.foldl (fun st e =>
            if some e.dst == p then st
            else if st.1.contains e.dst then (st.1, true)
            else dfsAux g fuel e.dst (some v) st.1 st.2) ((dfsAux g fuel e.dst (some v) Wc c₀).1, (dfsAux g fuel e.dst (some v) Wc c₀).2)).1.toFinset)
          ((dfsAux g fuel e.dst (some v) Wc c₀).1.toFinset) Wc.toFinset hsub01 hsub12
        have hmid : (dfsAux g fuel e.dst (some v) Wc c₀).1.toFinset \ Wc.toFinset = insert e.dst Δc := by
          ext x
          simp only [Finset.mem_sdiff, List.mem_toFinset, Finset.mem_insert]
          constructor
          · intro hx
            rcases (t1 x).mp hx.1 with h | h | h
            · exact absurd h hx.2
            · exact Or.inl h
            · exact Or.inr h
          · rintro (rfl | h)
            · exact ⟨he_ch, heNW⟩
            · exact ⟨(t1 x).mpr (Or.inr (Or.inr h)), t4 x h⟩
        have hcp : cntPar g e.dst (some v) = cntW g e.dst v := rfl
        have hCS : scanCS g v ((rest.foldl (fun st e =>
            if some e.dst == p then st
            else if st.1.contains e.dst then (st.1, true)
            else dfsAux g fuel e.dst (some v) st.1 st.2) ((dfsAux g fuel e.dst (some v) Wc c₀).1, (dfsAux g fuel e.dst (some v) Wc c₀).2)).1.toFinset \ Wc.toFinset) (insert e.dst D2)
            = excZ g e.dst (some v) Δc
              + scanCS g v ((rest.foldl (fun st e =>
            if some e.dst == p then st
            else if st.1.contains e.dst then (st.1, true)
            else dfsAux g fuel e.dst (some v) st.1 st.2) ((dfsAux g fuel e.dst (some v) Wc c₀).1, (dfsAux g fuel e.dst (some v) Wc c₀).2)).1.toFinset \ (dfsAux g fuel e.dst (some v) Wc c₀).1.toFinset) D2 := by
          unfold scanCS excZ
          rw [hcp, hdecomp, Finset.sum_union hdisj,
            Finset.card_union_of_disjoint hdisj, hmid,
            Finset.sum_insert t3, Finset.card_insert_of_not_mem t3,
            Finset.sum_insert heD2, Finset.card_insert_of_not_mem heD2]
          push_cast
          ring
        refine ⟨insert e.dst D2, nb2, ?_, u2, ?_, ?_, ?_, ?_, ?_, ?_, ?_, ?_, ?_⟩
        · intro x hx
          exact u1 x (hWc_ch x hx)
        · intro x hx hxW
          by_cases hxch : x ∈ (dfsAux g fuel e.dst (some v) Wc c₀).1
          · rcases (t1 x).mp hxch with hW | rfl | hΔ
            · exact absurd hW hxW
            · refine ⟨heB, fun hv => hxW (hsub _ hv), ?_, ?_⟩
              · exact Relation.ReflTransGen.single ⟨hre, fun hv => hxW (hsub _ hv)⟩
              · intro d hd
                rcases t7 d hd with hdp | hdch
                · rw [Option.some.inj hdp]
                  exact u1 v hv_ch
                · exact u1 d hdch
            · refine ⟨t5 x hΔ, fun hv => (t4 x hΔ) (hsub _ hv), ?_, ?_⟩
              · refine RAv_head g Vb v e.dst x hre (fun hv => heNW (hsub _ hv)) ?_
                exact RAv_mono g Wc Vb hsub e.dst x (t8 x hΔ)
              · intro d hd
                exact u1 d (t6 x hΔ d hd)
          · exact u3 x hx hxch
        · intro e2 he2
          rcases List.mem_cons.mp he2 with rfl | he2
          · exact Or.inr (u1 e2.dst he_ch)
          · exact u4 e2 he2
        · intro d hd
          rcases Finset.mem_insert.mp hd with rfl | hd
          · exact heNW
          · exact fun hh => u5 d hd (hWc_ch d hh)
        · intro d hd
          rcases Finset.mem_insert.mp hd with rfl | hd
          · exact u1 _ he_ch
          · exact u6 d hd
        · intro d hd
          rw [List.map_cons]
          rcases Finset.mem_insert.mp hd with rfl | hd
          · exact List.mem_cons_self _ _
          · exact List.mem_cons_of_mem _ (u7 d hd)
        · rw [hCS]
          exact add_nonneg t9 u8
        · rw [hCS, u9, t10]
          constructor
          · rintro ((hc | hx) | hn | hcs)
            · exact Or.inl hc
            · refine Or.inr (Or.inr ?_)
              linarith
            · exact Or.inr (Or.inl hn)
            · refine Or.inr (Or.inr ?_)
              linarith
          · rintro (hc | hn | hsum)
            · exact Or.inl (Or.inl hc)
            · exact Or.inr (Or.inl hn)
            · by_cases hx : 1 ≤ excZ g e.dst (some v) Δc
              · exact Or.inl (Or.inr hx)
              · refine Or.inr (Or.inr ?_)
                linarith
        · rw [List.map_cons, Finset.sum_insert heD2]
          have hsumD2 : (∑ d ∈ D2, (((e.dst :: rest.map WEdge.dst).count d : ℤ) - 1))
              = ∑ d ∈ D2, (((rest.map WEdge.dst).count d : ℤ) - 1) := by
            refine Finset.sum_congr rfl fun d hd => ?_
            have hne : ¬ (d = e.dst) := fun hh => heD2 (hh ▸ hd)
            rw [List.count_cons]
            simp [hne, Ne.symm hne]
          have hsumH : (∑ h ∈ H, ((e.dst :: rest.map WEdge.dst).count h : ℤ))
              = ∑ h ∈ H, ((rest.map WEdge.dst).count h : ℤ) := by
            refine Finset.sum_congr rfl fun h hh => ?_
            have hne : ¬ (h = e.dst) := fun h2 => heNW (h2 ▸ hH h hh)
            rw [List.count_cons]
            simp [hne, Ne.symm hne]
          have hhead : ((e.dst :: rest.map WEdge.dst).count e.dst : ℤ)
              = ((rest.map WEdge.dst).count e.dst : ℤ) + 1 := by
            rw [List.count_cons]
            simp
          rw [hsumD2, hsumH, hhead]
          rw [Finset.sum_insert heH] at u10
          linarith
        · rw [List.map_cons, List.length_cons, Finset.card_insert_of_not_mem heD2]
          have hci : cntIn p (e.dst :: rest.map WEdge.dst)
              = cntIn p (rest.map WEdge.dst) := by
            cases p with
            | none => simp [cntIn]
            | some pv =>
              have hne : ¬ (pv = e.dst) := hpne pv rfl
              simp [cntIn, List.count_cons, hne, Ne.symm hne]
          rw [hci]
          omega

/-- The DFS call specification holds at every fuel level. -/
theorem dfs_call_spec (g : WGraph) (bound : Finset String)
    (hsym : MSymW g) (hgb : ∀ x, ∀ d ∈ dstsW g x, d ∈ bound) :
    ∀ fuel, DfsCallSpec g bound fuel := by
  intro fuel
  induction fuel with
  | zero =>
    intro v p W c hvW hnd hp hvb hbud
    exact absurd hbud (Nat.not_lt_zero _)
  | succ fuel ih =>
    intro v p W c hvW hnd hp hvb hbud
    have hstep : dfsAux g (fuel + 1) v p W c = (nbrsW g v).foldl (fun st e =>
        if some e.dst == p then st
        else if st.1.contains e.dst then (st.1, true)
        else dfsAux g fuel e.dst (some v) st.1 st.2) (setAdd W v, c) := rfl
    have hsetadd : setAdd W v = W ++ [v] := by
      unfold setAdd
      rw [if_neg]
      intro hh
      exact hvW ((contains_iff_mem _ _).mp hh)
    rw [hstep, hsetadd]
    have hndW0 : (W ++ [v]).Nodup := by
      refine List.Nodup.append hnd (List.nodup_singleton _) ?_
      intro z hz hz2
      rw [List.mem_singleton.mp hz2] at hz
      exact hvW hz
    have hvW0 : v ∈ W ++ [v] := List.mem_append_right _ (List.mem_singleton_self v)
    have hW0fin : (W ++ [v]).toFinset = insert v W.toFinset := by
      rw [List.toFinset_append]
      ext x
      simp [or_comm]
    have hbud0 : (bound \ (W ++ [v]).toFinset).card < fuel := by
      rw [hW0fin]
      have hveq : bound \ insert v W.toFinset = (bound \ W.toFinset).erase v := by
        ext x
        simp only [Finset.mem_sdiff, Finset.mem_insert, Finset.mem_erase]
        tauto
      rw [hveq]
      have hvmem : v ∈ bound \ W.toFinset :=
        Finset.mem_sdiff.mpr ⟨hvb, fun hh => hvW (List.mem_toFinset.mp hh)⟩
      rw [Finset.card_erase_of_mem hvmem]
      have hpos : 0 < (bound \ W.toFinset).card := Finset.card_pos.mpr ⟨v, hvmem⟩
      omega
    obtain ⟨D, nb, s1, s2, s3, s4, s5, s6, s7, s8, s9, s10, s11⟩ :=
      dfs_scan_spec g bound hsym hgb fuel ih v p W (nbrsW g v) (W ++ [v]) c ∅
        (fun e he => List.mem_map_of_mem WEdge.dst he)
        hvW0 hndW0 (fun x hx => List.mem_append_left _ hx)
        (fun pv hpv => List.mem_append_left _ (hp pv hpv)) hbud0
        (fun h hh => absurd hh (Finset.not_mem_empty h))
        (fun pv _ => Finset.not_mem_empty pv)
    have hvΔ : v ∉ ((nbrsW g v).foldl (fun st e =>
        if some e.dst == p then st
        else if st.1.contains e.dst then (st.1, true)
        else dfsAux g fuel e.dst (some v) st.1 st.2) (W ++ [v], c)).1.toFinset \ (W ++ [v]).toFinset :=
      fun hh => (Finset.mem_sdiff.mp hh).2 (List.mem_toFinset.mpr hvW0)
    have hSnn : 0 ≤ ∑ d ∈ D, ((((nbrsW g v).map WEdge.dst).count d : ℤ) - 1) := by
      refine Finset.sum_nonneg fun d hd => ?_
      have hcp : 0 < ((nbrsW g v).map WEdge.dst).count d :=
        List.count_pos_iff_mem.mpr (s7 d hd)
      have : (1 : ℤ) ≤ (((nbrsW g v).map WEdge.dst).count d : ℤ) := by
        exact_mod_cast hcp
      linarith
    have hS_le : (∑ d ∈ D, ((((nbrsW g v).map WEdge.dst).count d : ℤ) - 1))
        ≤ (nb : ℤ) := by
      simpa using s10
    have hsplit : (∑ d ∈ D, ((((nbrsW g v).map WEdge.dst).count d : ℤ) - 1))
        = (∑ d ∈ D, (((nbrsW g v).map WEdge.dst).count d : ℤ)) - (D.card : ℤ) := by
      rw [Finset.sum_sub_distrib]
      simp
    have hexc : excZ g v p (((nbrsW g v).foldl (fun st e =>
        if some e.dst == p then st
        else if st.1.contains e.dst then (st.1, true)
        else dfsAux g fuel e.dst (some v) st.1 st.2) (W ++ [v], c)).1.toFinset \ (W ++ [v]).toFinset)
        = (nb : ℤ) + (∑ d ∈ D, ((((nbrsW g v).map WEdge.dst).count d : ℤ) - 1))
          + scanCS g v (((nbrsW g v).foldl (fun st e =>
        if some e.dst == p then st
        else if st.1.contains e.dst then (st.1, true)
        else dfsAux g fuel e.dst (some v) st.1 st.2) (W ++ [v], c)).1.toFinset \ (W ++ [v]).toFinset) D := by
      have hdegv : degW g v = cntIn p ((nbrsW g v).map WEdge.dst) + nb + D.card := s11
      have hcpar : cntPar g v p = cntIn p ((nbrsW g v).map WEdge.dst) := by
        cases p with
        | none => rfl
        | some pv => rfl
      have hcycle : ∀ d ∈ D, (cntW g d v : ℤ)
          = (((nbrsW g v).map WEdge.dst).count d : ℤ) := by
        intro d hd
        rw [hsym d v]
        rfl
      unfold excZ scanCS
      rw [Finset.sum_insert hvΔ, Finset.card_insert_of_not_mem hvΔ, hcpar, hdegv,
        Finset.sum_congr rfl hcycle, hsplit]
      push_cast
      ring
    refine ⟨((nbrsW g v).foldl (fun st e =>
        if some e.dst == p then st
        else if st.1.contains e.dst then (st.1, true)
        else dfsAux g fuel e.dst (some v) st.1 st.2) (W ++ [v], c)).1.toFinset \ (W ++ [v]).toFinset,
      ?_, s2, hvΔ, ?_, ?_, ?_, ?_, ?_, ?_, ?_⟩
    · intro x
      constructor
      · intro hx
        by_cases hx0 : x ∈ W ++ [v]
        · rcases List.mem_append.mp hx0 with h | h
          · exact Or.inl h
          · exact Or.inr (Or.inl (List.mem_singleton.mp h))
        · exact Or.inr (Or.inr (Finset.mem_sdiff.mpr
            ⟨List.mem_toFinset.mpr hx, fun hh => hx0 (List.mem_toFinset.mp hh)⟩))
      · rintro (h | h | h)
        · exact s1 x (List.mem_append_left _ h)
        · exact s1 x (h ▸ hvW0)
        · exact List.mem_toFinset.mp (Finset.mem_sdiff.mp h).1
    · intro x hx hxW
      exact (Finset.mem_sdiff.mp hx).2
        (List.mem_toFinset.mpr (List.mem_append_left _ hxW))
    · intro x hx
      obtain ⟨hx1, hx2⟩ := Finset.mem_sdiff.mp hx
      exact (s3 x (List.mem_toFinset.mp hx1)
        (fun hh => hx2 (List.mem_toFinset.mpr hh))).1
    · intro x hx d hd
      obtain ⟨hx1, hx2⟩ := Finset.mem_sdiff.mp hx
      exact (s3 x (List.mem_toFinset.mp hx1)
        (fun hh => hx2 (List.mem_toFinset.mpr hh))).2.2.2 d hd
    · intro d hd
      obtain ⟨e, he, hedst⟩ := (mem_dstsW g v d).mp hd
      rcases s4 e he with h | h
      · left
        rw [← hedst]
        exact h
      · right
        rw [← hedst]
        exact h
    · intro x hx
      obtain ⟨hx1, hx2⟩ := Finset.mem_sdiff.mp hx
      exact (s3 x (List.mem_toFinset.mp hx1)
        (fun hh => hx2 (List.mem_toFinset.mpr hh))).2.2.1
    · rw [hexc]
      exact add_nonneg (add_nonneg (Int.natCast_nonneg nb) hSnn) s8
    · rw [s9, hexc]
      constructor
      · rintro (hc | hn | hcs)
        · exact Or.inl hc
        · refine Or.inr ?_
          have h1 : (1 : ℤ) ≤ (nb : ℤ) := by exact_mod_cast hn
          linarith [s8]
        · refine Or.inr ?_
          linarith [hSnn, Int.natCast_nonneg nb]
      · rintro (hc | hx)
        · exact Or.inl hc
        · by_cases hn : 1 ≤ nb
          · exact Or.inr (Or.inl hn)
          · refine Or.inr (Or.inr ?_)
            have hnb0 : (nb : ℤ) = 0 := by
              have : nb = 0 := by omega
              exact_mod_cast this
            linarith [hS_le, hSnn]

theorem key_mem_wgNodes (g : WGraph) (s : String)
    (h : (wgFind g s).isSome) : s ∈ wgNodes g := by
  unfold wgFind at h
  cases hfind : List.find? (fun p => p.1 == s) g with
  | none =>
    rw [hfind] at h
    cases h
  | some q =>
    have hps : q.1 = s := by
      have := List.find?_some hfind
      rwa [beq_iff_eq] at this
    have hpg : q ∈ g := List.mem_of_find?_eq_some hfind
    unfold wgNodes
    rw [List.mem_dedup, List.mem_append]
    left
    rw [← hps]
    exact List.mem_map_of_mem (fun r => r.1) hpg

theorem reach_subset_closed (g : WGraph) (s : String) (Y : Finset String)
    (hs : s ∈ Y) (hcl : ∀ x ∈ Y, ∀ d ∈ dstsW g x, d ∈ Y) :
    ∀ x, ReachW g s x → x ∈ Y := by
  intro x hx
  induction hx with
  | refl => exact hs
  | tail hab hbc ih =>
    obtain ⟨e, he, hdst⟩ := hbc
    have : e.dst ∈ dstsW g _ := List.mem_map_of_mem WEdge.dst he
    rw [hdst] at this
    exact hcl _ ih _ this

theorem component_unique (g : WGraph) (s : String) (X Y : Finset String)
    (hX : IsComponent g s X) (hY : IsComponent g s Y) : X = Y := by
  obtain ⟨hsX, hclX, hrX⟩ := hX
  obtain ⟨hsY, hclY, hrY⟩ := hY
  ext x
  constructor
  · intro hx
    exact reach_subset_closed g s Y hsY hclY x (hrX x hx)
  · intro hx
    exact reach_subset_closed g s X hsX hclX x (hrY x hx)

/-- Characterisation of `hasCycleThrough`: on a multiset-symmetric graph
it reports a cycle exactly when the degree sum over the component of the
start terminal differs from twice (component size − 1). -/
theorem hasCycle_char (g : WGraph) (s : String) (hsym : MSymW g)
    (hs : s ≠ "") (hkey : (wgFind g s).isSome) (X : Finset String)
    (hX : IsComponent g s X) :
    hasCycleThrough g s
      = decide ((∑ x ∈ X, (degW g x : ℤ)) ≠ 2 * ((X.card : ℤ) - 1)) := by
  have hguard : (s != "" && (wgFind g s).isSome) = true := by
    rw [Bool.and_eq_true]
    refine ⟨?_, hkey⟩
    rw [bne_iff_ne]
    exact hs
  have hrun : hasCycleThrough g s
      = (dfsAux g ((wgNodes g).length + 1) s Option.none [] false).2 := by
    unfold hasCycleThrough
    rw [if_pos hguard]
  have hgb : ∀ x, ∀ d ∈ dstsW g x, d ∈ (wgNodes g).toFinset := by
    intro x d hd
    obtain ⟨e, he, hdst⟩ := (mem_dstsW g x d).mp hd
    rw [← hdst]
    exact List.mem_toFinset.mpr (dst_mem_wgNodes g x e he)
  have hsb : s ∈ (wgNodes g).toFinset := List.mem_toFinset.mpr (key_mem_wgNodes g s hkey)
  have hbud : ((wgNodes g).toFinset \ ([] : List String).toFinset).card
      < (wgNodes g).length + 1 := by
    simp only [List.toFinset_nil, Finset.sdiff_empty]
    exact Nat.lt_succ_of_le (List.toFinset_card_le _)
  obtain ⟨Δ, q1, q2, q3, q4, q5, q6, q7, q8, q9, q10⟩ :=
    dfs_call_spec g (wgNodes g).toFinset hsym hgb ((wgNodes g).length + 1)
      s Option.none [] false (List.not_mem_nil s) List.nodup_nil
      (fun pv hpv => by cases hpv) hsb hbud
  have hcomp : IsComponent g s (insert s Δ) := by
    refine ⟨Finset.mem_insert_self s Δ, ?_, ?_⟩
    · intro x hx d hd
      rcases Finset.mem_insert.mp hx with rfl | hx
      · rcases q7 d hd with hh | hh
        · cases hh
        · rcases (q1 d).mp hh with hh2 | hh2 | hh2
          · cases hh2
          · exact hh2 ▸ Finset.mem_insert_self _ _
          · exact Finset.mem_insert_of_mem hh2
      · have := q6 x hx d hd
        rcases (q1 d).mp this with hh2 | hh2 | hh2
        · cases hh2
        · exact hh2 ▸ Finset.mem_insert_self _ _
        · exact Finset.mem_insert_of_mem hh2
    · intro x hx
      rcases Finset.mem_insert.mp hx with rfl | hx
      · exact Relation.ReflTransGen.refl
      · exact (RAv_nil_iff g s x).mp (q8 x hx)
  have hXeq : X = insert s Δ := component_unique g s X (insert s Δ) hX hcomp
  have hexc0 : excZ g s Option.none Δ
      = (∑ x ∈ X, (degW g x : ℤ)) - 2 * ((X.card : ℤ) - 1) := by
    unfold excZ cntPar
    rw [hXeq]
    push_cast
    ring
  rw [hrun]
  have hiff : (dfsAux g ((wgNodes g).length + 1) s Option.none [] false).2 = true
      ↔ ((∑ x ∈ X, (degW g x : ℤ)) ≠ 2 * ((X.card : ℤ) - 1)) := by
    rw [q10]
    constructor
    · rintro (hc | hx)
      · cases hc
      · intro heq
        rw [hexc0] at hx
        omega
    · intro hne
      right
      rw [hexc0]
      have : (∑ x ∈ X, (degW g x : ℤ)) - 2 * ((X.card : ℤ) - 1) ≠ 0 := by
        intro hh
        exact hne (by omega)
      have h0 : 0 ≤ excZ g s Option.none Δ := q9
      rw [hexc0] at h0
      omega
  rw [Bool.eq_iff_iff]
  rw [decide_eq_true_eq]
  exact hiff

theorem EqvW_refl (g : WGraph) : EqvW g g :=
  ⟨fun _ => Iff.rfl, fun _ => List.Perm.refl _⟩

theorem EqvW_trans {g1 g2 g3 : WGraph} (h12 : EqvW g1 g2) (h23 : EqvW g2 g3) :
    EqvW g1 g3 :=
  ⟨fun k => (h12.1 k).trans (h23.1 k),
    fun v => (h12.2 v).trans (h23.2 v)⟩

theorem EqvW_degW {g1 g2 : WGraph} (h : EqvW g1 g2) (v : String) :
    degW g1 v = degW g2 v := by
  have h1 : degW g1 v = (dstsW g1 v).length := (List.length_map _ _).symm
  have h2 : degW g2 v = (dstsW g2 v).length := (List.length_map _ _).symm
  rw [h1, h2, (h.2 v).length_eq]

theorem EqvW_cntW {g1 g2 : WGraph} (h : EqvW g1 g2) (u v : String) :
    cntW g1 u v = cntW g2 u v := by
  unfold cntW
  exact (h.2 u).count_eq v

theorem EqvW_msym {g1 g2 : WGraph} (h : EqvW g1 g2) (hsym : MSymW g1) :
    MSymW g2 := by
  intro u v
  rw [← EqvW_cntW h u v, ← EqvW_cntW h v u]
  exact hsym u v

theorem EqvW_reach {g1 g2 : WGraph} (h : EqvW g1 g2) (a b : String)
    (hr : ReachW g1 a b) : ReachW g2 a b := by
  refine Relation.ReflTransGen.mono ?_ hr
  intro x y hxy
  obtain ⟨e, he, hdst⟩ := hxy
  have hd1 : y ∈ dstsW g1 x := by
    rw [← hdst]
    exact List.mem_map_of_mem WEdge.dst he
  have hd2 : y ∈ dstsW g2 x := (h.2 x).mem_iff.mp hd1
  exact (mem_dstsW g2 x y).mp hd2

theorem EqvW_component {g1 g2 : WGraph} (h : EqvW g1 g2) (s : String)
    (X : Finset String) (hX : IsComponent g1 s X) : IsComponent g2 s X := by
  obtain ⟨hs, hcl, hr⟩ := hX
  refine ⟨hs, ?_, ?_⟩
  · intro x hx d hd
    exact hcl x hx d ((h.2 x).mem_iff.mpr hd)
  · intro x hx
    exact EqvW_reach h s x (hr x hx)

theorem component_exists (g : WGraph) (s : String) (hsym : MSymW g)
    (hkey : (wgFind g s).isSome) : ∃ X, IsComponent g s X := by
  have hgb : ∀ x, ∀ d ∈ dstsW g x, d ∈ (wgNodes g).toFinset := by
    intro x d hd
    obtain ⟨e, he, hdst⟩ := (mem_dstsW g x d).mp hd
    rw [← hdst]
    exact List.mem_toFinset.mpr (dst_mem_wgNodes g x e he)
  have hsb : s ∈ (wgNodes g).toFinset :=
    List.mem_toFinset.mpr (key_mem_wgNodes g s hkey)
  have hbud : ((wgNodes g).toFinset \ ([] : List String).toFinset).card
      < (wgNodes g).length + 1 := by
    simp only [List.toFinset_nil, Finset.sdiff_empty]
    exact Nat.lt_succ_of_le (List.toFinset_card_le _)
  obtain ⟨Δ, q1, q2, q3, q4, q5, q6, q7, q8, q9, q10⟩ :=
    dfs_call_spec g (wgNodes g).toFinset hsym hgb ((wgNodes g).length + 1)
      s Option.none [] false (List.not_mem_nil s) List.nodup_nil
      (fun pv hpv => by cases hpv) hsb hbud
  refine ⟨insert s Δ, Finset.mem_insert_self s Δ, ?_, ?_⟩
  · intro x hx d hd
    rcases Finset.mem_insert.mp hx with rfl | hx
    · rcases q7 d hd with hh | hh
      · cases hh
      · rcases (q1 d).mp hh with hh2 | hh2 | hh2
        · cases hh2
        · exact hh2 ▸ Finset.mem_insert_self _ _
        · exact Finset.mem_insert_of_mem hh2
    · have := q6 x hx d hd
      rcases (q1 d).mp this with hh2 | hh2 | hh2
      · cases hh2
      · exact hh2 ▸ Finset.mem_insert_self _ _
      · exact Finset.mem_insert_of_mem hh2
  · intro x hx
    rcases Finset.mem_insert.mp hx with rfl | hx
    · exact Relation.ReflTransGen.refl
    · exact (RAv_nil_iff g s x).mp (q8 x hx)

/-- `hasCycleThrough` depends only on the graph up to reordering of the
adjacency structure. -/
theorem hasCycle_eqv (g1 g2 : WGraph) (hsym : MSymW g1) (heqv : EqvW g1 g2)
    (s : String) : hasCycleThrough g1 s = hasCycleThrough g2 s := by
  by_cases hs : s = ""
  · subst hs
    unfold hasCycleThrough
    simp
  · by_cases hkey : (wgFind g1 s).isSome
    · have hkey2 : (wgFind g2 s).isSome = true := (heqv.1 s).mp hkey
      obtain ⟨X, hX⟩ := component_exists g1 s hsym hkey
      have hsym2 : MSymW g2 := EqvW_msym heqv hsym
      have hX2 : IsComponent g2 s X := EqvW_component heqv s X hX
      rw [hasCycle_char g1 s hsym hs hkey X hX,
        hasCycle_char g2 s hsym2 hs hkey2 X hX2]
      have hdeg : (∑ x ∈ X, (degW g1 x : ℤ)) = ∑ x ∈ X, (degW g2 x : ℤ) :=
        Finset.sum_congr rfl fun x _ => by rw [EqvW_degW heqv x]
      rw [hdeg]
    · have hkey2 : ¬ ((wgFind g2 s).isSome = true) :=
        fun hh => hkey ((heqv.1 s).mpr hh)
      have h1 : (s != "" && (wgFind g1 s).isSome) = false := by
        rw [Bool.and_eq_false_iff]
        right
        exact Bool.eq_false_iff.mpr hkey
      have h2 : (s != "" && (wgFind g2 s).isSome) = false := by
        rw [Bool.and_eq_false_iff]
        right
        exact Bool.eq_false_iff.mpr hkey2
      unfold hasCycleThrough
      rw [h1, h2]
      rfl

theorem dstsW_wgAdd (g : WGraph) (a b : String) (w : ℚ) (x : String) :
    dstsW (wgAdd g a b w) x
      = dstsW g x ++ (if x = a then [b] else [])
          ++ (if x = b then [a] else []) := by
  unfold dstsW
  rw [nbrsW_wgAdd, List.map_append, List.map_append]
  by_cases hxa : x = a <;> by_cases hxb : x = b <;>
    simp [hxa, hxb, apply_ite (List.map WEdge.dst)]

theorem wgFind_isSome_wgEnsure (g : WGraph) (k x : String) :
    (wgFind (wgEnsure g k) x).isSome = true
      ↔ ((wgFind g x).isSome = true ∨ x = k) := by
  rw [wgFind_wgEnsure]
  by_cases hxk : x = k <;> simp [hxk]

theorem wgFind_isSome_wgPush (g : WGraph) (k : String) (e : WEdge) (x : String) :
    (wgFind (wgPush g k e) x).isSome = true
      ↔ (wgFind g x).isSome = true := by
  rw [wgFind_wgPush]
  by_cases hxk : x = k <;> simp [hxk]

theorem wgFind_isSome_wgAdd (g : WGraph) (a b : String) (w : ℚ) (x : String) :
    (wgFind (wgAdd g a b w) x).isSome = true
      ↔ ((wgFind g x).isSome = true ∨ x = a ∨ x = b) := by
  unfold wgAdd
  rw [wgFind_isSome_wgPush, wgFind_isSome_wgPush, wgFind_isSome_wgEnsure,
    wgFind_isSome_wgEnsure]
  tauto

theorem EqvW_wgAdd {g1 g2 : WGraph} (h : EqvW g1 g2) (a b : String) (w1 w2 : ℚ) :
    EqvW (wgAdd g1 a b w1) (wgAdd g2 a b w2) := by
  constructor
  · intro k
    rw [wgFind_isSome_wgAdd, wgFind_isSome_wgAdd]
    rw [h.1 k]
  · intro v
    rw [dstsW_wgAdd, dstsW_wgAdd]
    exact List.Perm.append (List.Perm.append (h.2 v) (List.Perm.refl _))
      (List.Perm.refl _)

theorem perm_shuffle (l A B C D : List String) :
    ((l ++ A ++ B) ++ C ++ D).Perm ((l ++ C ++ D) ++ A ++ B) := by
  simp only [List.append_assoc]
  refine List.Perm.append_left l ?_
  have h1 : A ++ (B ++ (C ++ D)) = (A ++ B) ++ (C ++ D) := by
    rw [List.append_assoc]
  have h2 : C ++ (D ++ (A ++ B)) = (C ++ D) ++ (A ++ B) := by
    rw [List.append_assoc]
  rw [h1, h2]
  exact List.perm_append_comm

theorem EqvW_wgAdd_comm (g : WGraph) (a b : String) (w : ℚ)
    (a2 b2 : String) (w2 : ℚ) :
    EqvW (wgAdd (wgAdd g a b w) a2 b2 w2) (wgAdd (wgAdd g a2 b2 w2) a b w) := by
  constructor
  · intro k
    rw [wgFind_isSome_wgAdd, wgFind_isSome_wgAdd, wgFind_isSome_wgAdd,
      wgFind_isSome_wgAdd]
    tauto
  · intro v
    rw [dstsW_wgAdd, dstsW_wgAdd, dstsW_wgAdd, dstsW_wgAdd]
    exact perm_shuffle _ _ _ _ _

theorem count_if_singleton (c : Prop) [Decidable c] (y v : String) :
    ((if c then [y] else []) : List String).count v
      = if c ∧ v = y then 1 else 0 := by
  by_cases hc : c <;> by_cases hv : v = y <;>
    simp [hc, hv, List.count_cons]

theorem MSymW_wgAdd (g : WGraph) (a b : String) (w : ℚ) (hsym : MSymW g) :
    MSymW (wgAdd g a b w) := by
  intro u v
  unfold cntW
  rw [dstsW_wgAdd, dstsW_wgAdd, List.count_append, List.count_append,
    List.count_append, List.count_append, count_if_singleton,
    count_if_singleton, count_if_singleton, count_if_singleton]
  have hbase : (dstsW g u).count v = (dstsW g v).count u := hsym u v
  rw [hbase]
  have h1 : ((u = a ∧ v = b) ↔ (v = b ∧ u = a)) := and_comm
  have h2 : ((u = b ∧ v = a) ↔ (v = a ∧ u = b)) := and_comm
  rw [if_congr h1 rfl rfl, if_congr h2 rfl rfl]
  omega

theorem MSymW_nil : MSymW [] := by
  intro u v
  rfl

theorem foldl_rel {α β : Type} (R : β → β → Prop) (f1 f2 : β → α → β)
    (hstep : ∀ b1 b2 a, R b1 b2 → R (f1 b1 a) (f2 b2 a)) :
    ∀ (l : List α) (b1 b2 : β), R b1 b2 → R (l.foldl f1 b1) (l.foldl f2 b2) := by
  intro l
  induction l with
  | nil => intro b1 b2 h; exact h
  | cons a l ih => intro b1 b2 h; exact ih _ _ (hstep b1 b2 a h)

/-- Each wire either leaves the weighted graph unchanged or adds one
symmetric edge; which of the two happens does not depend on the graph. -/
theorem wire_step_cases (components : List Component) (allowed : List String)
    (key : String) (w : Wire) :
    (∀ g : WGraph, (fun g w =>
      if w.fault == some "open" then g
      else if !(optMemAllowed (termTypeById components w.a) allowed
          && optMemAllowed (termTypeById components w.b) allowed) then g
      else
        let k := if w.switchedLive then "L" else w.kind
        if !(k == "GEN" || (key == "L" && k == "L")
            || (key == "N" && k == "N") || (key == "E" && k == "E")) then g
        else wgAdd g w.a w.b (wireResistance components w key)) g w = g)
    ∨ (∀ g : WGraph, (fun g w =>
      if w.fault == some "open" then g
      else if !(optMemAllowed (termTypeById components w.a) allowed
          && optMemAllowed (termTypeById components w.b) allowed) then g
      else
        let k := if w.switchedLive then "L" else w.kind
        if !(k == "GEN" || (key == "L" && k == "L")
            || (key == "N" && k == "N") || (key == "E" && k == "E")) then g
        else wgAdd g w.a w.b (wireResistance components w key)) g w
        = wgAdd g w.a w.b (wireResistance components w key)) := by
  by_cases h1 : (w.fault == some "open") = true
  · left
    intro g
    dsimp only
    rw [if_pos h1]
  · by_cases h2 : (!(optMemAllowed (termTypeById components w.a) allowed
        && optMemAllowed (termTypeById components w.b) allowed)) = true
    · left
      intro g
      dsimp only
      rw [if_neg h1, if_pos h2]
    · by_cases h3 : (!((if w.switchedLive then "L" else w.kind) == "GEN"
          || (key == "L" && (if w.switchedLive then "L" else w.kind) == "L")
          || (key == "N" && (if w.switchedLive then "L" else w.kind) == "N")
          || (key == "E" && (if w.switchedLive then "L" else w.kind) == "E"))) = true
      · left
        intro g
        dsimp only
        rw [if_neg h1, if_neg h2, if_pos h3]
      · right
        intro g
        dsimp only
        rw [if_neg h1, if_neg h2, if_neg h3]

theorem wire_step_congr (components : List Component) (allowed : List String)
    (key : String) {g1 g2 : WGraph} (h : EqvW g1 g2) (w : Wire) :
    EqvW ((fun g w =>
      if w.fault == some "open" then g
      else if !(optMemAllowed (termTypeById components w.a) allowed
          && optMemAllowed (termTypeById components w.b) allowed) then g
      else
        let k := if w.switchedLive then "L" else w.kind
        if !(k == "GEN" || (key == "L" && k == "L")
            || (key == "N" && k == "N") || (key == "E" && k == "E")) then g
        else wgAdd g w.a w.b (wireResistance components w key)) g1 w) ((fun g w =>
      if w.fault == some "open" then g
      else if !(optMemAllowed (termTypeById components w.a) allowed
          && optMemAllowed (termTypeById components w.b) allowed) then g
      else
        let k := if w.switchedLive then "L" else w.kind
        if !(k == "GEN" || (key == "L" && k == "L")
            || (key == "N" && k == "N") || (key == "E" && k == "E")) then g
        else wgAdd g w.a w.b (wireResistance components w key)) g2 w) := by
  rcases wire_step_cases components allowed key w with hc | hc
  · rw [hc g1, hc g2]
    exact h
  · rw [hc g1, hc g2]
    exact EqvW_wgAdd h _ _ _ _

theorem wire_step_swap (components : List Component) (allowed : List String)
    (key : String) (g : WGraph) (x y : Wire) :
    EqvW ((fun g w =>
      if w.fault == some "open" then g
      else if !(optMemAllowed (termTypeById components w.a) allowed
          && optMemAllowed (termTypeById components w.b) allowed) then g
      else
        let k := if w.switchedLive then "L" else w.kind
        if !(k == "GEN" || (key == "L" && k == "L")
            || (key == "N" && k == "N") || (key == "E" && k == "E")) then g
        else wgAdd g w.a w.b (wireResistance components w key)) ((fun g w =>
      if w.fault == some "open" then g
      else if !(optMemAllowed (termTypeById components w.a) allowed
          && optMemAllowed (termTypeById components w.b) allowed) then g
      else
        let k := if w.switchedLive then "L" else w.kind
        if !(k == "GEN" || (key == "L" && k == "L")
            || (key == "N" && k == "N") || (key == "E" && k == "E")) then g
        else wgAdd g w.a w.b (wireResistance components w key)) g y) x) ((fun g w =>
      if w.fault == some "open" then g
      else if !(optMemAllowed (termTypeById components w.a) allowed
          && optMemAllowed (termTypeById components w.b) allowed) then g
      else
        let k := if w.switchedLive then "L" else w.kind
        if !(k == "GEN" || (key == "L" && k == "L")
            || (key == "N" && k == "N") || (key == "E" && k == "E")) then g
        else wgAdd g w.a w.b (wireResistance components w key)) ((fun g w =>
      if w.fault == some "open" then g
      else if !(optMemAllowed (termTypeById components w.a) allowed
          && optMemAllowed (termTypeById components w.b) allowed) then g
      else
        let k := if w.switchedLive then "L" else w.kind
        if !(k == "GEN" || (key == "L" && k == "L")
            || (key == "N" && k == "N") || (key == "E" && k == "E")) then g
        else wgAdd g w.a w.b (wireResistance components w key)) g x) y) := by
  rcases wire_step_cases components allowed key x with hx | hx <;>
    rcases wire_step_cases components allowed key y with hy | hy
  · rw [hx, hx, hy]
    exact EqvW_refl _
  · rw [hx, hx]
    exact EqvW_refl _
  · rw [hy, hy]
    exact EqvW_refl _
  · rw [hx, hx, hy, hy]
    exact EqvW_wgAdd_comm g _ _ _ _ _ _

theorem wire_fold_perm (components : List Component) (allowed : List String)
    (key : String) :
    ∀ {wires1 wires2 : List Wire}, wires1.Perm wires2 →
      ∀ g1 g2, EqvW g1 g2 →
        EqvW (wires1.foldl (fun g w =>
      if w.fault == some "open" then g
      else if !(optMemAllowed (termTypeById components w.a) allowed
          && optMemAllowed (termTypeById components w.b) allowed) then g
      else
        let k := if w.switchedLive then "L" else w.kind
        if !(k == "GEN" || (key == "L" && k == "L")
            || (key == "N" && k == "N") || (key == "E" && k == "E")) then g
        else wgAdd g w.a w.b (wireResistance components w key)) g1) (wires2.foldl (fun g w =>
      if w.fault == some "open" then g
      else if !(optMemAllowed (termTypeById components w.a) allowed
          && optMemAllowed (termTypeById components w.b) allowed) then g
      else
        let k := if w.switchedLive then "L" else w.kind
        if !(k == "GEN" || (key == "L" && k == "L")
            || (key == "N" && k == "N") || (key == "E" && k == "E")) then g
        else wgAdd g w.a w.b (wireResistance components w key)) g2) := by
  intro wires1 wires2 hperm
  induction hperm with
  | nil =>
    intro g1 g2 h
    exact h
  | cons x h ih =>
    intro g1 g2 hg
    rw [List.foldl_cons, List.foldl_cons]
    exact ih _ _ (wire_step_congr components allowed key hg x)
  | swap x y l =>
    intro g1 g2 hg
    rw [List.foldl_cons, List.foldl_cons, List.foldl_cons, List.foldl_cons]
    refine foldl_rel EqvW _ _
      (fun b1 b2 a hb => wire_step_congr components allowed key hb a) l _ _ ?_
    exact EqvW_trans (wire_step_swap components allowed key g1 x y)
      (wire_step_congr components allowed key
        (wire_step_congr components allowed key hg x) y)
  | trans h1 h2 ih1 ih2 =>
    intro g1 g2 hg
    exact EqvW_trans (ih1 _ _ hg) (ih2 _ _ (EqvW_refl _))

theorem link_step_congr (allowed : List String) (c : Component)
    {g1 g2 : WGraph} (h : EqvW g1 g2) (pr : String × String) :
    EqvW
      ((fun g2 pr =>
        match c.terminals.find? (fun t => t.name == pr.1),
              c.terminals.find? (fun t => t.name == pr.2) with
        | some t1, some t2 =>
          if allowed.contains t1.t && allowed.contains t2.t then
            wgAdd g2 t1.id t2.id contactR
          else g2
        | _, _ => g2) g1 pr)
      ((fun g2 pr =>
        match c.terminals.find? (fun t => t.name == pr.1),
              c.terminals.find? (fun t => t.name == pr.2) with
        | some t1, some t2 =>
          if allowed.contains t1.t && allowed.contains t2.t then
            wgAdd g2 t1.id t2.id contactR
          else g2
        | _, _ => g2) g2 pr) := by
  dsimp only
  cases hf1 : c.terminals.find? (fun t => t.name == pr.1) with
  | none => exact h
  | some t1 =>
    cases hf2 : c.terminals.find? (fun t => t.name == pr.2) with
    | none => exact h
    | some t2 =>
      show EqvW
        (if allowed.contains t1.t && allowed.contains t2.t then
          wgAdd g1 t1.id t2.id contactR else g1)
        (if allowed.contains t1.t && allowed.contains t2.t then
          wgAdd g2 t1.id t2.id contactR else g2)
      by_cases hcond : (allowed.contains t1.t && allowed.contains t2.t) = true
      · rw [if_pos hcond, if_pos hcond]
        exact EqvW_wgAdd h _ _ _ _
      · rw [if_neg hcond, if_neg hcond]
        exact h

/-- Builds from wire lists that are permutations of one another give
weighted graphs with identical keys and per-node neighbour multisets. -/
theorem buildWeightedSubgraph_perm (components : List Component)
    (wires1 wires2 : List Wire) (hperm : wires1.Perm wires2)
    (allowed : List String) (key : String) :
    EqvW (buildWeightedSubgraph components wires1 allowed key)
      (buildWeightedSubgraph components wires2 allowed key) := by
  unfold buildWeightedSubgraph
  dsimp only
  refine foldl_rel EqvW _ _ ?_ components _ _ ?_
  · intro b1 b2 c hb
    exact foldl_rel EqvW _ _
      (fun d1 d2 pr hd => link_step_congr allowed c hd pr) (linksOf c) b1 b2 hb
  · exact wire_fold_perm components allowed key hperm [] [] (EqvW_refl [])

/-- Every graph the weighted builder produces is multiset-symmetric. -/
theorem buildWeightedSubgraph_msym (components : List Component)
    (wires : List Wire) (allowed : List String) (key : String) :
    MSymW (buildWeightedSubgraph components wires allowed key) := by
  unfold buildWeightedSubgraph
  dsimp only
  apply foldl_preserves MSymW
  · intro st c hst
    apply foldl_preserves MSymW
    · intro st2 pr hst2
      repeat' split
      all_goals first
        | exact hst2
        | exact MSymW_wgAdd _ _ _ _ hst2
    · exact hst
  · apply foldl_preserves MSymW
    · intro st w hst
      repeat' split
      all_goals first
        | exact hst
        | exact MSymW_wgAdd _ _ _ _ hst
    · exact MSymW_nil

/-- C5: ring detection is order-independent — for any two wire lists that
contain the same wires in different orders, `hasCycleThrough` on the
family graph built from each (any conductor family `allowed`/`key` and
any start terminal) reports the same ring status. -/
theorem hasCycleThrough_order_independent_c5 (components : List Component)
    (wires1 wires2 : List Wire) (hperm : wires1.Perm wires2)
    (allowed : List String) (key : String) (startId : String) :
    hasCycleThrough (buildWeightedSubgraph components wires1 allowed key) startId
      = hasCycleThrough (buildWeightedSubgraph components wires2 allowed key)
          startId :=
  hasCycle_eqv _ _ (buildWeightedSubgraph_msym components wires1 allowed key)
    (buildWeightedSubgraph_perm components wires1 wires2 hperm allowed key)
    startId

/-- C5 witness: the three-wire ring drawn in one order versus the
reversed order reports the same ring status on the Line family. -/
theorem c5_witness :
    hasCycleThrough (buildWeightedSubgraph fixRingComps
        [fixRw1, fixRw2, fixRw3] lineTermTypes "L") "u1"
      = hasCycleThrough (buildWeightedSubgraph fixRingComps
          [fixRw3, fixRw2, fixRw1] lineTermTypes "L") "u1" :=
  hasCycleThrough_order_independent_c5 fixRingComps
    [fixRw1, fixRw2, fixRw3] [fixRw3, fixRw2, fixRw1]
    ((List.reverse_perm [fixRw1, fixRw2, fixRw3]).symm) lineTermTypes "L" "u1"

end WireLab
